/-
Verification of the lastfm-golang scrobble mirror.

This file gives a shallow embedding, in Lean 4, of the core of the
lastfm-golang repository:

  * the wire data model of the Last.fm client (internal/lastfm),
  * the event store (internal/store: StableSourceHash, InsertScrobble,
    MaxPlayedAtUTS) over an explicit list of rows,
  * the ingestion loops of cmd/lastfm-golang (cmdBackfill, cmdSync) and the
    retry wrapper getPageWithRetry,
  * the digest queries of internal/digest (SQL over the scrobbles table,
    modelled as list computations; ORDER BY with equal keys is modelled as a
    stable sort over the table scan order, which is how a fixed SQLite file
    behaves deterministically),
  * the recommendation pipeline of internal/recommend, with remote calls and
    float parsing passed in as explicit oracle parameters and an explicit
    trace of outgoing calls.

Machine integers (int64) are modelled as Int; timestamps never overflow in
any statement below.  Go map iteration order is modelled as key insertion
order (a fixed deterministic choice).  Strings are Lean Strings; Unicode
case folding and space trimming (strings.ToLower / strings.TrimSpace) are
modelled by ASCII lowercasing and whitespace trimming over the character
list (strLower / strTrim below, agreeing with Go on ASCII data, which is
all the statements below depend on).
-/
import Mathlib

/-! ### Wire data model (internal/lastfm) -/

/-- A name/mbid pair as decoded from the Last.fm JSON (lastfm.TextMBID). -/
structure TextMBID where
  text : String
  mbid : String
deriving DecidableEq, Repr

/-- The date object of a scrobble (lastfm.Date); only the `uts` string is
used by the core. -/
structure DateT where
  uts : String
  dtext : String
deriving DecidableEq, Repr

/-- One recent-tracks entry (lastfm.Track).  A missing `date` is the
"now playing" marker. -/
structure Track where
  name : String
  mbid : String
  url : String
  artist : TextMBID
  album : TextMBID
  date : Option DateT
deriving DecidableEq, Repr

/-- One page of the recent-tracks feed (lastfm.Page). -/
structure Page where
  tracks : List Track
  page : Nat
  totalPages : Nat
  total : Nat
deriving DecidableEq, Repr

/-! ### parseI64 (strconv.ParseInt with base 10, bit size 64)

Both cmd/lastfm-golang and internal/store call strconv.ParseInt(s, 10, 64):
an optional sign followed by at least one decimal digit, nothing else, and
the value must fit in int64.  Failure is modelled as `none`. -/

/-- Numeric value of a string of decimal digits. -/
def digitsVal (ds : List Char) : Nat :=
  ds.foldl (fun a c => a * 10 + (c.toNat - 48)) 0

/-- Model of strconv.ParseInt(s, 10, 64). -/
def parseI64 (s : String) : Option Int :=
  let cs := s.data
  match cs with
  | [] => none
  | c :: rest =>
    let signed : Bool × List Char :=
      if c = '-' then (true, rest)
      else if c = '+' then (false, rest)
      else (false, cs)
    let neg := signed.1
    let ds := signed.2
    if ds = [] then none
    else if ds.all Char.isDigit then
      let n := digitsVal ds
      if neg then
        if n ≤ 2 ^ 63 then some (-(n : Int)) else none
      else
        if n < 2 ^ 63 then some (n : Int) else none
    else none

/-! ### SHA-256 (crypto/sha256), used by StableSourceHash

A faithful FIPS 180-4 implementation over byte lists (`Nat` values < 256),
producing the lowercase fixed-width hex string that
hex.EncodeToString(sha256.Sum256(...)) yields in Go. -/

/-- 2^32, the word modulus. -/
def w32 : Nat := 4294967296

/-- Right rotation of a 32-bit word. -/
def rotr32 (n x : Nat) : Nat := ((x >>> n) ||| (x <<< (32 - n))) % w32

/-- The SHA-256 round constants. -/
def sha256K : List Nat :=
  [1116352408, 1899447441, 3049323471, 3921009573, 961987163,
   1508970993, 2453635748, 2870763221, 3624381080, 310598401,
   607225278, 1426881987, 1925078388, 2162078206, 2614888103,
   3248222580, 3835390401, 4022224774, 264347078, 604807628,
   770255983, 1249150122, 1555081692, 1996064986, 2554220882,
   2821834349, 2952996808, 3210313671, 3336571891, 3584528711,
   113926993, 338241895, 666307205, 773529912, 1294757372,
   1396182291, 1695183700, 1986661051, 2177026350, 2456956037,
   2730485921, 2820302411, 3259730800, 3345764771, 3516065817,
   3600352804, 4094571909, 275423344, 430227734, 506948616,
   659060556, 883997877, 958139571, 1322822218, 1537002063,
   1747873779, 1955562222, 2024104815, 2227730452, 2361852424,
   2428436474, 2756734187, 3204031479, 3329325298]

/-- The SHA-256 initial hash value, as an 8-tuple of 32-bit words. -/
def sha256H0 : Nat × Nat × Nat × Nat × Nat × Nat × Nat × Nat :=
  (1779033703, 3144134277, 1013904242, 2773480762,
   1359893119, 2600822924, 528734635, 1541459225)

def sigma0 (x : Nat) : Nat := rotr32 7 x ^^^ rotr32 18 x ^^^ (x >>> 3)

def sigma1 (x : Nat) : Nat := rotr32 17 x ^^^ rotr32 19 x ^^^ (x >>> 10)

def bigSigma0 (x : Nat) : Nat := rotr32 2 x ^^^ rotr32 13 x ^^^ rotr32 22 x

def bigSigma1 (x : Nat) : Nat := rotr32 6 x ^^^ rotr32 11 x ^^^ rotr32 25 x

def shaCh (x y z : Nat) : Nat := (x &&& y) ^^^ ((x ^^^ (w32 - 1)) &&& z)

def shaMaj (x y z : Nat) : Nat := (x &&& y) ^^^ (x &&& z) ^^^ (y &&& z)

/-- SHA-256 message padding: append 0x80, zero bytes up to 56 mod 64, then
the bit length as a 64-bit big-endian integer. -/
def sha256Pad (msg : List Nat) : List Nat :=
  let l := msg.length
  let k := (120 - (l + 1) % 64) % 64
  let lenBits := 8 * l
  msg ++ [0x80] ++ List.replicate k 0 ++
    (List.range 8).map (fun i => (lenBits >>> (8 * (7 - i))) % 256)

/-- The i-th big-endian 32-bit word of a 64-byte block. -/
def blockWord (block : List Nat) (i : Nat) : Nat :=
  block.getD (4 * i) 0 * 16777216 + block.getD (4 * i + 1) 0 * 65536 +
    block.getD (4 * i + 2) 0 * 256 + block.getD (4 * i + 3) 0

/-- Extend the 16 block words to the 64-entry message schedule. -/
def sha256Extend (w : List Nat) : Nat → List Nat
  | 0 => w
  | t + 1 =>
    let w' := sha256Extend w t
    let n := w'.length
    w' ++ [(sigma1 (w'.getD (n - 2) 0) + w'.getD (n - 7) 0 +
            sigma0 (w'.getD (n - 15) 0) + w'.getD (n - 16) 0) % w32]

def sha256Schedule (block : List Nat) : List Nat :=
  sha256Extend ((List.range 16).map (blockWord block)) 48

/-- One round of the SHA-256 compression function. -/
def sha256Step (w : List Nat) (st : Nat × Nat × Nat × Nat × Nat × Nat × Nat × Nat)
    (t : Nat) : Nat × Nat × Nat × Nat × Nat × Nat × Nat × Nat :=
  let (a, b, c, d, e, f, g, h) := st
  let t1 := (h + bigSigma1 e + shaCh e f g + sha256K.getD t 0 + w.getD t 0) % w32
  let t2 := (bigSigma0 a + shaMaj a b c) % w32
  ((t1 + t2) % w32, a, b, c, (d + t1) % w32, e, f, g)

/-- Compress one 64-byte block into the running hash state. -/
def sha256Compress (hs : Nat × Nat × Nat × Nat × Nat × Nat × Nat × Nat)
    (block : List Nat) : Nat × Nat × Nat × Nat × Nat × Nat × Nat × Nat :=
  let w := sha256Schedule block
  let fin := (List.range 64).foldl (sha256Step w) hs
  let (a, b, c, d, e, f, g, h) := fin
  let (h0, h1, h2, h3, h4, h5, h6, h7) := hs
  ((h0 + a) % w32, (h1 + b) % w32, (h2 + c) % w32, (h3 + d) % w32,
   (h4 + e) % w32, (h5 + f) % w32, (h6 + g) % w32, (h7 + h) % w32)

/-- Split a padded message into 64-byte blocks. -/
def sha256ChunksGo : Nat → List Nat → List (List Nat)
  | 0, _ => []
  | n + 1, l => l.take 64 :: sha256ChunksGo n (l.drop 64)

def sha256Chunks (l : List Nat) : List (List Nat) :=
  sha256ChunksGo (l.length / 64) l

/-- The SHA-256 digest of a byte list, as eight 32-bit words. -/
def sha256Words (msg : List Nat) :
    Nat × Nat × Nat × Nat × Nat × Nat × Nat × Nat :=
  (sha256Chunks (sha256Pad msg)).foldl sha256Compress sha256H0

/-- A 32-bit word as 8 lowercase hex digits (fixed width). -/
def hexWord32 (x : Nat) : String :=
  ((List.range 8).map (fun i => Nat.digitChar ((x >>> (4 * (7 - i))) % 16))).asString

/-- Lowercase hex rendering of the SHA-256 digest of a byte list, as
hex.EncodeToString(sha256.Sum256(bytes)) produces in Go. -/
def sha256Hex (msg : List Nat) : String :=
  let (h0, h1, h2, h3, h4, h5, h6, h7) := sha256Words msg
  hexWord32 h0 ++ hexWord32 h1 ++ hexWord32 h2 ++ hexWord32 h3 ++
    hexWord32 h4 ++ hexWord32 h5 ++ hexWord32 h6 ++ hexWord32 h7

/-- UTF-8 encoding of one character, as byte values. -/
def utf8Bytes (c : Char) : List Nat :=
  let n := c.toNat
  if n < 0x80 then [n]
  else if n < 0x800 then
    [0xC0 ||| (n >>> 6), 0x80 ||| (n &&& 0x3F)]
  else if n < 0x10000 then
    [0xE0 ||| (n >>> 12), 0x80 ||| ((n >>> 6) &&& 0x3F), 0x80 ||| (n &&& 0x3F)]
  else
    [0xF0 ||| (n >>> 18), 0x80 ||| ((n >>> 12) &&& 0x3F),
     0x80 ||| ((n >>> 6) &&& 0x3F), 0x80 ||| (n &&& 0x3F)]

/-- UTF-8 bytes of a string, as Nat values. -/
def strBytes (s : String) : List Nat :=
  s.data.foldr (fun c acc => utf8Bytes c ++ acc) []

/-! ### StableSourceHash (internal/store) -/

/-- The pre-image string fed to SHA-256 by StableSourceHash:
fmt.Sprintf("%d|%s|%s|%s", playedAtUTS, artist, track, album). -/
def sourceHashInput (playedAtUTS : Int) (artist track album : String) : String :=
  toString playedAtUTS ++ "|" ++ artist ++ "|" ++ track ++ "|" ++ album

/-- store.StableSourceHash: the dedupe key for a scrobble. -/
def StableSourceHash (playedAtUTS : Int) (artist track album : String) : String :=
  sha256Hex (strBytes (sourceHashInput playedAtUTS artist track album))

/-! ### The scrobbles table (internal/store/schema.sql) -/

/-- One row of the scrobbles table.  The sole uniqueness constraint is on
sourceHash. -/
structure Row where
  playedAtUTS : Int
  trackName : String
  artistName : String
  albumName : Option String
  trackMBID : Option String
  artistMBID : Option String
  albumMBID : Option String
  lastfmURL : Option String
  sourceHash : String
deriving DecidableEq, Repr

/-- store.nullIfEmpty: empty strings are stored as NULL. -/
def nullIfEmpty (s : String) : Option String :=
  if s = "" then none else some s

/-- store.InsertResult. -/
structure InsertResult where
  inserted : Nat
  ignored : Nat
deriving DecidableEq, Repr

/-- Whether some table row already carries the given dedup key: the
UNIQUE(source_hash) constraint check behind INSERT OR IGNORE. -/
def hashPresent (rows : List Row) (h : String) : Bool :=
  rows.any (fun r => r.sourceHash = h)

/-- Model of store.InsertScrobble over the list of table rows.  `error`
models a surfaced insert failure (the unparsable-timestamp path); INSERT OR
IGNORE against the UNIQUE(source_hash) constraint is an append-if-absent. -/
def insertScrobble (rows : List Row) (t : Track) :
    Except String (InsertResult × List Row) :=
  match t.date with
  | none => .ok (⟨0, 1⟩, rows)
  | some d =>
    if d.uts = "" then .ok (⟨0, 1⟩, rows)
    else
      match parseI64 d.uts with
      | none => .error ("invalid uts: " ++ d.uts)
      | some playedAt =>
        let hash := StableSourceHash playedAt t.artist.text t.name t.album.text
        if hashPresent rows hash then .ok (⟨0, 1⟩, rows)
        else
          .ok (⟨1, 0⟩, rows ++
            [{ playedAtUTS := playedAt
               trackName := t.name
               artistName := t.artist.text
               albumName := nullIfEmpty t.album.text
               trackMBID := nullIfEmpty t.mbid
               artistMBID := nullIfEmpty t.artist.mbid
               albumMBID := nullIfEmpty t.album.mbid
               lastfmURL := nullIfEmpty t.url
               sourceHash := hash }])

/-- store.MaxPlayedAtUTS: MAX(played_at_uts), with NULL (empty table)
reported as 0. -/
def maxPlayedAt (rows : List Row) : Int :=
  match rows.map (fun r => r.playedAtUTS) with
  | [] => 0
  | x :: xs => xs.foldl max x

/-! ### Decimal rendering lemmas

fmt.Sprintf("%d", playedAtUTS) is modelled by `toString : Int → String`.
The following lemmas show the decimal rendering is injective and never
contains the separator character, which is what the dedup-key analysis
needs. -/

theorem toDigitsCore_fuel_irrel (f : Nat) :
    ∀ n ds, n < f →
      Nat.toDigitsCore 10 f n ds = Nat.toDigitsCore 10 (n + 1) n ds := by
  induction f using Nat.strong_induction_on with
  | _ f ih =>
    intro n ds hn
    match f, hn with
    | f + 1, hn =>
      simp only [Nat.toDigitsCore]
      by_cases h0 : n / 10 = 0
      · simp [h0]
      · simp only [h0, if_false]
        have hlt : n / 10 < n := Nat.div_lt_self (Nat.pos_of_ne_zero (by
          intro h; exact h0 (by simp [h]))) (by decide)
        have h1 : n / 10 < f := lt_of_lt_of_le hlt (Nat.lt_succ_iff.mp hn)
        rw [ih f (Nat.lt_succ_self f) (n / 10) _ h1, ih n hn (n / 10) _ hlt]

theorem toDigitsCore_append (f : Nat) :
    ∀ n ds, n < f →
      Nat.toDigitsCore 10 f n ds = Nat.toDigitsCore 10 f n [] ++ ds := by
  induction f using Nat.strong_induction_on with
  | _ f ih =>
    intro n ds hn
    match f, hn with
    | f + 1, hn =>
      simp only [Nat.toDigitsCore]
      by_cases h0 : n / 10 = 0
      · simp [h0]
      · simp only [h0, if_false]
        have hlt : n / 10 < n := Nat.div_lt_self (Nat.pos_of_ne_zero (by
          intro h; exact h0 (by simp [h]))) (by decide)
        have h1 : n / 10 < f := lt_of_lt_of_le hlt (Nat.lt_succ_iff.mp hn)
        rw [toDigitsCore_fuel_irrel f (n / 10) (Nat.digitChar (n % 10) :: ds) h1,
          toDigitsCore_fuel_irrel f (n / 10) [Nat.digitChar (n % 10)] h1,
          ih (n / 10 + 1) (by omega) (n / 10) (Nat.digitChar (n % 10) :: ds)
            (Nat.lt_succ_self _),
          ih (n / 10 + 1) (by omega) (n / 10) [Nat.digitChar (n % 10)]
            (Nat.lt_succ_self _)]
        simp

theorem toDigits_of_lt (n : Nat) (h : n < 10) :
    Nat.toDigits 10 n = [Nat.digitChar n] := by
  have h0 : n / 10 = 0 := Nat.div_eq_of_lt h
  simp [Nat.toDigits, Nat.toDigitsCore, h0, Nat.mod_eq_of_lt h]

theorem toDigits_step (n : Nat) (h : 10 ≤ n) :
    Nat.toDigits 10 n = Nat.toDigits 10 (n / 10) ++ [Nat.digitChar (n % 10)] := by
  have h0 : n / 10 ≠ 0 := by
    intro hx
    have := Nat.div_eq_of_lt (show n < 10 by
      by_contra hc
      exact absurd hx (by
        have : 10 / 10 ≤ n / 10 := Nat.div_le_div_right (le_of_not_lt hc)
        simpa using Nat.pos_iff_ne_zero.mp (lt_of_lt_of_le (by decide) this)))
    exact absurd this (by omega)
  have hlt : n / 10 < n := Nat.div_lt_self (by omega) (by decide)
  show Nat.toDigitsCore 10 (n + 1) n [] = _
  simp only [Nat.toDigitsCore, h0, if_false]
  rw [toDigitsCore_fuel_irrel n _ _ hlt,
    toDigitsCore_append (n / 10 + 1) _ _ (Nat.lt_succ_self _)]
  rfl

theorem digitChar_isDigit : ∀ m, m < 10 → (Nat.digitChar m).isDigit = true := by
  decide

theorem digitChar_val : ∀ m, m < 10 → (Nat.digitChar m).toNat - 48 = m := by
  decide

theorem toDigits_all_digits (n : Nat) :
    ∀ c ∈ Nat.toDigits 10 n, c.isDigit = true := by
  induction n using Nat.strong_induction_on with
  | _ n ih =>
    intro c hc
    by_cases h : n < 10
    · rw [toDigits_of_lt n h] at hc
      simp at hc
      subst hc
      exact digitChar_isDigit n h
    · rw [toDigits_step n (le_of_not_lt h)] at hc
      rcases List.mem_append.mp hc with h1 | h1
      · exact ih (n / 10) (Nat.div_lt_self (by omega) (by decide)) c h1
      · simp at h1
        subst h1
        exact digitChar_isDigit _ (Nat.mod_lt _ (by decide))

theorem digitsVal_toDigits (n : Nat) : digitsVal (Nat.toDigits 10 n) = n := by
  induction n using Nat.strong_induction_on with
  | _ n ih =>
    by_cases h : n < 10
    · rw [toDigits_of_lt n h]
      show 0 * 10 + ((Nat.digitChar n).toNat - 48) = n
      rw [digitChar_val n h]
      omega
    · rw [toDigits_step n (le_of_not_lt h)]
      unfold digitsVal
      rw [List.foldl_append]
      show digitsVal (Nat.toDigits 10 (n / 10)) * 10 + ((Nat.digitChar (n % 10)).toNat - 48) = n
      rw [ih (n / 10) (Nat.div_lt_self (by omega) (by decide)),
        digitChar_val _ (Nat.mod_lt _ (by decide))]
      omega

theorem strDataInj {s t : String} (h : s.data = t.data) : s = t := by
  cases s
  cases t
  exact congrArg String.mk h

theorem natRepr_inj {m n : Nat} (h : Nat.repr m = Nat.repr n) : m = n := by
  have hd : Nat.toDigits 10 m = Nat.toDigits 10 n := by
    have := congrArg String.data h
    simpa [Nat.repr, List.asString] using this
  have := congrArg digitsVal hd
  rwa [digitsVal_toDigits, digitsVal_toDigits] at this

theorem natRepr_all_digits (n : Nat) :
    ∀ c ∈ (Nat.repr n).data, c.isDigit = true := by
  intro c hc
  exact toDigits_all_digits n c (by simpa [Nat.repr, List.asString] using hc)

theorem toDigits_ne_nil (n : Nat) : Nat.toDigits 10 n ≠ [] := by
  by_cases h : n < 10
  · rw [toDigits_of_lt n h]; simp
  · rw [toDigits_step n (le_of_not_lt h)]; simp

theorem intStr_eq_repr (i : Int) : toString i = Int.repr i := by
  cases i <;> rfl

theorem intStr_no_bar (i : Int) : '|' ∉ (toString i).data := by
  rw [intStr_eq_repr]
  cases i with
  | ofNat m =>
    intro hm
    have := natRepr_all_digits m '|' hm
    simp [Char.isDigit] at this
  | negSucc m =>
    show '|' ∉ ("-" ++ Nat.repr (m + 1)).data
    rw [String.data_append]
    intro hm
    rcases List.mem_append.mp hm with h1 | h1
    · simp [show ("-" : String).data = ['-'] from rfl] at h1
    · have := natRepr_all_digits (m + 1) '|' h1
      simp [Char.isDigit] at this

theorem toString_int_inj {i j : Int} (h : toString i = toString j) : i = j := by
  rw [intStr_eq_repr, intStr_eq_repr] at h
  cases i with
  | ofNat m =>
    cases j with
    | ofNat n => exact congrArg Int.ofNat (natRepr_inj h)
    | negSucc n =>
      exfalso
      have hd := congrArg String.data h
      rw [show (Int.repr (Int.ofNat m)).data = (Nat.repr m).data from rfl,
        show (Int.repr (Int.negSucc n)).data = ("-" ++ Nat.repr (n + 1)).data from rfl,
        String.data_append] at hd
      have hne := toDigits_ne_nil m
      cases hm : Nat.toDigits 10 m with
      | nil => exact hne hm
      | cons c cs =>
        have hmd : (Nat.repr m).data = c :: cs := by simp [Nat.repr, List.asString, hm]
        rw [hmd, show ("-" : String).data = ['-'] from rfl] at hd
        have hc : c = '-' := by simpa using congrArg (fun l => l.headD ' ') hd
        have := toDigits_all_digits m c (by rw [hm]; simp)
        rw [hc] at this
        simp [Char.isDigit] at this
  | negSucc m =>
    cases j with
    | ofNat n =>
      exfalso
      have hd := congrArg String.data h
      rw [show (Int.repr (Int.negSucc m)).data = ("-" ++ Nat.repr (m + 1)).data from rfl,
        show (Int.repr (Int.ofNat n)).data = (Nat.repr n).data from rfl,
        String.data_append] at hd
      have hne := toDigits_ne_nil n
      cases hn : Nat.toDigits 10 n with
      | nil => exact hne hn
      | cons c cs =>
        have hnd : (Nat.repr n).data = c :: cs := by simp [Nat.repr, List.asString, hn]
        rw [hnd, show ("-" : String).data = ['-'] from rfl] at hd
        have hc : '-' = c := by simpa using congrArg (fun l => l.headD ' ') hd
        have := toDigits_all_digits n c (by rw [hn]; simp)
        rw [← hc] at this
        simp [Char.isDigit] at this
    | negSucc n =>
      have hd := congrArg String.data h
      rw [show (Int.repr (Int.negSucc m)).data = ("-" ++ Nat.repr (m + 1)).data from rfl,
        show (Int.repr (Int.negSucc n)).data = ("-" ++ Nat.repr (n + 1)).data from rfl,
        String.data_append, String.data_append] at hd
      have : (Nat.repr (m + 1)).data = (Nat.repr (n + 1)).data := by
        rw [show ("-" : String).data = ['-'] from rfl] at hd
        simpa using hd
      have h2 := natRepr_inj (strDataInj this)
      have hmn : m = n := by omega
      rw [hmn]

/-- Splitting at the first separator: if neither head segment contains the
separator, equal joined lists have equal segments. -/
theorem sep_split {xs ys u v : List Char} (hx : '|' ∉ xs) (hy : '|' ∉ ys)
    (h : xs ++ '|' :: u = ys ++ '|' :: v) : xs = ys ∧ u = v := by
  induction xs generalizing ys with
  | nil =>
    cases ys with
    | nil => simpa using h
    | cons b bs =>
      exfalso
      have hb : '|' = b := by simpa using congrArg (fun l => l.headD ' ') h
      exact hy (by rw [← hb]; simp)
  | cons a as ih =>
    cases ys with
    | nil =>
      exfalso
      have ha : a = '|' := by simpa using congrArg (fun l => l.headD ' ') h
      exact hx (by rw [← ha]; simp)
    | cons b bs =>
      simp only [List.cons_append, List.cons.injEq] at h
      obtain ⟨hab, htail⟩ := h
      have := ih (fun hm => hx (List.mem_cons_of_mem a hm))
        (fun hm => hy (List.mem_cons_of_mem b hm)) htail
      exact ⟨by rw [hab, this.1], this.2⟩

/-- Injectivity of the StableSourceHash pre-image when no string field
contains the separator character. -/
theorem sourceHashInput_inj {t t' : Int} {a b c a' b' c' : String}
    (ha : '|' ∉ a.data) (hb : '|' ∉ b.data) (hc : '|' ∉ c.data)
    (ha' : '|' ∉ a'.data) (hb' : '|' ∉ b'.data) (hc' : '|' ∉ c'.data)
    (h : sourceHashInput t a b c = sourceHashInput t' a' b' c') :
    t = t' ∧ a = a' ∧ b = b' ∧ c = c' := by
  have hd := congrArg String.data h
  simp only [sourceHashInput, String.data_append,
    show ("|" : String).data = ['|'] from rfl, List.append_assoc,
    List.singleton_append] at hd
  obtain ⟨h1, hd⟩ := sep_split (intStr_no_bar t) (intStr_no_bar t') hd
  obtain ⟨h2, hd⟩ := sep_split ha ha' hd
  obtain ⟨h3, h4⟩ := sep_split hb hb' hd
  exact ⟨toString_int_inj (strDataInj h1), strDataInj h2, strDataInj h3,
    strDataInj h4⟩

/-- C1, counterexample: two argument tuples that differ in the artist and
track fields but produce the same dedup key, because the separator is not
unambiguous — the Sprintf pre-images coincide.  This refutes the claim that
tuples differing in at least one field always produce different keys. -/
theorem stableSourceHash_not_field_sensitive :
    StableSourceHash 123 "a|b" "c" "d" = StableSourceHash 123 "a" "b|c" "d" ∧
    ("a|b" : String) ≠ "a" ∧ ("c" : String) ≠ "b|c" := by
  refine ⟨?_, by decide, by decide⟩
  have h : sourceHashInput 123 "a|b" "c" "d" = sourceHashInput 123 "a" "b|c" "d" := by
    simp only [sourceHashInput]
    apply strDataInj
    simp [String.data_append]
  exact congrArg (fun s => sha256Hex (strBytes s)) h

/-- C1 (amended): StableSourceHash is deterministic — equal argument tuples
give equal keys — and tuples that differ in at least one field produce
different SHA-256 pre-images (hence different keys absent SHA-256
collisions) provided no string field contains the separator character '|'. -/
theorem stableSourceHash_deterministic_field_sensitive :
    (∀ (t t' : Int) (a b c a' b' c' : String), t = t' → a = a' → b = b' → c = c' →
        StableSourceHash t a b c = StableSourceHash t' a' b' c') ∧
    (∀ (t t' : Int) (a b c a' b' c' : String),
        '|' ∉ a.data → '|' ∉ b.data → '|' ∉ c.data →
        '|' ∉ a'.data → '|' ∉ b'.data → '|' ∉ c'.data →
        (t, a, b, c) ≠ (t', a', b', c') →
        sourceHashInput t a b c ≠ sourceHashInput t' a' b' c') := by
  constructor
  · rintro t t' a b c a' b' c' rfl rfl rfl rfl
    rfl
  · intro t t' a b c a' b' c' ha hb hc ha' hb' hc' hne h
    obtain ⟨h1, h2, h3, h4⟩ := sourceHashInput_inj ha hb hc ha' hb' hc' h
    exact hne (by rw [h1, h2, h3, h4])

/-- Witness for the amended C1 theorem at concrete inputs. -/
theorem stableSourceHash_deterministic_field_sensitive_witness :
    StableSourceHash 7 "ar" "tr" "al" = StableSourceHash 7 "ar" "tr" "al" ∧
    sourceHashInput 7 "ar" "tr" "al" ≠ sourceHashInput 8 "ar" "tr" "al" :=
  ⟨stableSourceHash_deterministic_field_sensitive.1 7 7 "ar" "tr" "al" "ar" "tr" "al"
      rfl rfl rfl rfl,
   stableSourceHash_deterministic_field_sensitive.2 7 8 "ar" "tr" "al" "ar" "tr" "al"
      (by decide) (by decide) (by decide) (by decide) (by decide) (by decide)
      (by decide)⟩

/-! ### The page-walk insert loop (cmd/lastfm-golang)

Both cmdBackfill and cmdSync run the same per-page body: insert each event
through the store and append a raw-log envelope exactly when the insert
reported Inserted > 0 (the AppendRaw call is guarded by res.Inserted > 0). -/

/-- Store state: the scrobbles table plus the append-only raw JSONL log
(an envelope is modelled by the track payload it wraps). -/
structure StoreSt where
  rows : List Row
  rawLog : List Track
deriving DecidableEq, Repr

/-- Does the event carry a timestamp?  (t.Date != nil && t.Date.UTS != "") -/
def hasTS (t : Track) : Bool :=
  match t.date with
  | none => false
  | some d => d.uts != ""

/-- The dedup key an event will be stored under, when its timestamp parses. -/
def trackHash (t : Track) : Option String :=
  match t.date with
  | none => none
  | some d =>
    (parseI64 d.uts).map
      (fun v => StableSourceHash v t.artist.text t.name t.album.text)

/-- The shared per-page loop body of cmdBackfill and cmdSync: insert the
events in order, appending a raw envelope only for newly inserted ones, and
report the per-event insert results. -/
def insertEvents : StoreSt → List Track → Except String (StoreSt × List InsertResult)
  | st, [] => .ok (st, [])
  | st, t :: ts =>
    match insertScrobble st.rows t with
    | .error e => .error e
    | .ok (res, rows') =>
      let st' : StoreSt :=
        { rows := rows'
          rawLog := if res.inserted > 0 then st.rawLog ++ [t] else st.rawLog }
      match insertEvents st' ts with
      | .error e => .error e
      | .ok (stF, rs) => .ok (stF, res :: rs)

/-- A successful insert of a dated event leaves the event's dedup key
present, only ever grows the key set, and is a no-op ignore when the key was
already present. -/
theorem insertScrobble_hash {rows : List Row} {t : Track} {res : InsertResult}
    {rows' : List Row} (hts : hasTS t = true)
    (h : insertScrobble rows t = .ok (res, rows')) :
    ∃ hsh, trackHash t = some hsh ∧ hashPresent rows' hsh = true ∧
      (∀ h0, hashPresent rows h0 = true → hashPresent rows' h0 = true) ∧
      (hashPresent rows hsh = true → res = ⟨0, 1⟩ ∧ rows' = rows) := by
  cases hd : t.date with
  | none => simp [hasTS, hd] at hts
  | some d =>
    have hne : ¬d.uts = "" := by simpa [hasTS, hd] using hts
    cases hp : parseI64 d.uts with
    | none => simp [insertScrobble, hd, if_neg hne, hp] at h
    | some v =>
      simp only [insertScrobble, hd, if_neg hne, hp] at h
      refine ⟨StableSourceHash v t.artist.text t.name t.album.text,
        by simp [trackHash, hd, hp], ?_⟩
      by_cases hmem :
        hashPresent rows (StableSourceHash v t.artist.text t.name t.album.text) = true
      · rw [if_pos hmem] at h
        simp only [Except.ok.injEq, Prod.mk.injEq] at h
        obtain ⟨h1, h2⟩ := h
        subst h2
        exact ⟨hmem, fun h0 hp0 => hp0, fun _ => ⟨h1.symm, rfl⟩⟩
      · rw [if_neg hmem] at h
        simp only [Except.ok.injEq, Prod.mk.injEq] at h
        obtain ⟨h1, h2⟩ := h
        subst h2
        refine ⟨?_, ?_, ?_⟩
        · simp [hashPresent, List.any_append]
        · intro h0 hp0
          simp only [hashPresent, List.any_append, Bool.or_eq_true]
          left
          simpa [hashPresent] using hp0
        · intro hcontra
          exact absurd hcontra hmem

/-- Inserting a dated event whose dedup key is already stored is an ignore:
no error, no new row. -/
theorem insertScrobble_dup {rows : List Row} {t : Track} {hsh : String}
    (hh : trackHash t = some hsh) (hp : hashPresent rows hsh = true) :
    insertScrobble rows t = .ok (⟨0, 1⟩, rows) := by
  cases hd : t.date with
  | none => simp [trackHash, hd] at hh
  | some d =>
    cases hpv : parseI64 d.uts with
    | none => simp [trackHash, hd, hpv] at hh
    | some v =>
      have hh' : StableSourceHash v t.artist.text t.name t.album.text = hsh := by
        simpa [trackHash, hd, hpv] using hh
      by_cases hne : d.uts = ""
      · exfalso
        have hnone : parseI64 "" = none := by decide
        rw [hne, hnone] at hpv
        exact absurd hpv (by simp)
      · have hpres :
            hashPresent rows (StableSourceHash v t.artist.text t.name t.album.text) = true := by
          rw [hh']
          exact hp
        simp [insertScrobble, hd, if_neg hne, hpv, hpres]

/-- Second pass over events whose keys are all present: every insert is an
ignore and the store (rows and raw log alike) is unchanged. -/
theorem insertEvents_second_pass : ∀ (ts : List Track) (st : StoreSt),
    (∀ t ∈ ts, ∃ hsh, trackHash t = some hsh ∧ hashPresent st.rows hsh = true) →
    insertEvents st ts = .ok (st, List.replicate ts.length ⟨0, 1⟩) := by
  intro ts
  induction ts with
  | nil => intro st _; rfl
  | cons t ts ih =>
    intro st hall
    obtain ⟨hsh, hh, hp⟩ := hall t (by simp)
    simp only [insertEvents, insertScrobble_dup hh hp, gt_iff_lt,
      Nat.lt_irrefl, if_false, ih st (fun u hu => hall u (by simp [hu]))]
    rfl

/-- After a successful first pass over dated events, previously present keys
are still present and every processed event's key is present. -/
theorem insertEvents_hashes : ∀ (ts : List Track) (st stF : StoreSt)
    (rs : List InsertResult),
    (∀ t ∈ ts, hasTS t = true) →
    insertEvents st ts = .ok (stF, rs) →
    (∀ h0, hashPresent st.rows h0 = true → hashPresent stF.rows h0 = true) ∧
    (∀ t ∈ ts, ∃ hsh, trackHash t = some hsh ∧ hashPresent stF.rows hsh = true) := by
  intro ts
  induction ts with
  | nil =>
    intro st stF rs _ h
    unfold insertEvents at h
    simp only [Except.ok.injEq, Prod.mk.injEq] at h
    obtain ⟨h1, _⟩ := h
    subst h1
    exact ⟨fun h0 hp0 => hp0, by simp⟩
  | cons t ts ih =>
    intro st stF rs hall h
    unfold insertEvents at h
    cases hins : insertScrobble st.rows t with
    | error e => rw [hins] at h; simp at h
    | ok p =>
      obtain ⟨res, rows'⟩ := p
      rw [hins] at h
      simp only at h
      cases hrec : insertEvents
          { rows := rows',
            rawLog := if res.inserted > 0 then st.rawLog ++ [t] else st.rawLog } ts with
      | error e => rw [hrec] at h; simp at h
      | ok q =>
        obtain ⟨stF', rs'⟩ := q
        rw [hrec] at h
        simp only [Except.ok.injEq, Prod.mk.injEq] at h
        obtain ⟨h1, _⟩ := h
        subst h1
        obtain ⟨hsh, hh, hpres, hmono, _⟩ :=
          insertScrobble_hash (hall t (by simp)) hins
        have hrest := ih _ stF' rs' (fun u hu => hall u (by simp [hu])) hrec
        refine ⟨fun h0 hp0 => hrest.1 h0 (hmono h0 hp0), ?_⟩
        intro u hu
        rcases List.mem_cons.mp hu with h1 | h1
        · subst h1
          exact ⟨hsh, hh, hrest.1 hsh hpres⟩
        · exact hrest.2 u h1

/-- C2: insertion is idempotent.  If a page of events, each carrying a
timestamp, inserts successfully into any store, then re-inserting the same
page into the resulting store succeeds with inserted=0/ignored=1 for every
event, and leaves the stored rows, the raw log (AppendRaw is guarded by
Inserted > 0), and hence all counts unchanged. -/
theorem insertEvents_idempotent (ts : List Track) (st stF : StoreSt)
    (rs : List InsertResult)
    (hts : ∀ t ∈ ts, hasTS t = true)
    (h1 : insertEvents st ts = .ok (stF, rs)) :
    insertEvents stF ts = .ok (stF, List.replicate ts.length ⟨0, 1⟩) :=
  insertEvents_second_pass ts stF (insertEvents_hashes ts st stF rs hts h1).2

/-- C6: per-event anomalies in InsertScrobble.  An event with no timestamp
(a nil date, or an empty uts string) is ignored with no error and writes
nothing; an event whose timestamp string does not parse as an integer is a
surfaced error, and no row is written by that call. -/
theorem insertScrobble_anomalies :
    (∀ (rows : List Row) (t : Track), t.date = none →
        insertScrobble rows t = .ok (⟨0, 1⟩, rows)) ∧
    (∀ (rows : List Row) (t : Track) (d : DateT), t.date = some d → d.uts = "" →
        insertScrobble rows t = .ok (⟨0, 1⟩, rows)) ∧
    (∀ (rows : List Row) (t : Track) (d : DateT), t.date = some d → d.uts ≠ "" →
        parseI64 d.uts = none →
        insertScrobble rows t = .error ("invalid uts: " ++ d.uts)) := by
  refine ⟨?_, ?_, ?_⟩
  · intro rows t hd
    simp [insertScrobble, hd]
  · intro rows t d hd hu
    simp [insertScrobble, hd, hu]
  · intro rows t d hd hu hp
    simp [insertScrobble, hd, if_neg hu, hp]

set_option maxRecDepth 1000000 in
/-- Witness for the idempotence theorem: a concrete one-event page inserted
into the empty store, then re-inserted. -/
theorem insertEvents_idempotent_witness :
    insertEvents
      ⟨[⟨100, "tr", "ar", some "al", none, none, none, none,
          "07826243088ed0d88fd3f32f55b205453d73dd01f81b830cac49a43273ec0fe5"⟩],
        [⟨"tr", "", "", ⟨"ar", ""⟩, ⟨"al", ""⟩, some ⟨"100", ""⟩⟩]⟩
      [⟨"tr", "", "", ⟨"ar", ""⟩, ⟨"al", ""⟩, some ⟨"100", ""⟩⟩] =
      .ok (⟨[⟨100, "tr", "ar", some "al", none, none, none, none,
          "07826243088ed0d88fd3f32f55b205453d73dd01f81b830cac49a43273ec0fe5"⟩],
        [⟨"tr", "", "", ⟨"ar", ""⟩, ⟨"al", ""⟩, some ⟨"100", ""⟩⟩]⟩,
        List.replicate 1 ⟨0, 1⟩) :=
  insertEvents_idempotent
    [⟨"tr", "", "", ⟨"ar", ""⟩, ⟨"al", ""⟩, some ⟨"100", ""⟩⟩]
    ⟨[], []⟩
    ⟨[⟨100, "tr", "ar", some "al", none, none, none, none,
        "07826243088ed0d88fd3f32f55b205453d73dd01f81b830cac49a43273ec0fe5"⟩],
      [⟨"tr", "", "", ⟨"ar", ""⟩, ⟨"al", ""⟩, some ⟨"100", ""⟩⟩]⟩
    [⟨1, 0⟩]
    (by decide)
    (by rfl)

/-- Witness for the insert-anomaly theorem at concrete events: a dateless
event, an empty-uts event, and an unparsable-uts event. -/
theorem insertScrobble_anomalies_witness :
    insertScrobble [] ⟨"t1", "", "", ⟨"a1", ""⟩, ⟨"", ""⟩, none⟩ = .ok (⟨0, 1⟩, []) ∧
    insertScrobble [] ⟨"t2", "", "", ⟨"a2", ""⟩, ⟨"", ""⟩, some ⟨"", ""⟩⟩ =
      .ok (⟨0, 1⟩, []) ∧
    insertScrobble [] ⟨"t3", "", "", ⟨"a3", ""⟩, ⟨"", ""⟩, some ⟨"5x", ""⟩⟩ =
      .error ("invalid uts: " ++ "5x") :=
  ⟨insertScrobble_anomalies.1 [] _ rfl,
   insertScrobble_anomalies.2.1 [] _ ⟨"", ""⟩ rfl rfl,
   insertScrobble_anomalies.2.2 [] _ ⟨"5x", ""⟩ rfl (by decide) (by decide)⟩

/-! ### cmdSync and cmdBackfill (cmd/lastfm-golang/main.go)

The remote feed is modelled as the list (resp. function) of pages the
remote returns; pages beyond it are empty, which is how a paginated feed
ends.  Each model returns the final state together with the number of
GetRecentTracksPage fetches performed. -/

/-- The parsed timestamp of an event, when it carries one. -/
def trackUTS (t : Track) : Option Int :=
  match t.date with
  | none => none
  | some d => if d.uts = "" then none else parseI64 d.uts

/-- Running state of an ingestion command: store plus the inserted/ignored
counters. -/
structure SyncSt where
  store : StoreSt
  inserted : Nat
  ignored : Nat
deriving DecidableEq, Repr

/-- The per-event stop-flag update of cmdSync: an event with a parseable
timestamp ≤ maxSeen sets the flag, when maxSeen ≠ 0; nothing resets it. -/
def stopAfter (maxSeen : Int) (t : Track) (stop : Bool) : Bool :=
  match t.date with
  | none => stop
  | some d =>
    if d.uts = "" then stop
    else
      match parseI64 d.uts with
      | none => stop
      | some uts => if maxSeen ≠ 0 ∧ uts ≤ maxSeen then true else stop

/-- The per-page body of cmdSync: insert each event (guarded raw append,
counters), updating the stop flag per event. -/
def syncPage (maxSeen : Int) : SyncSt → Bool → List Track →
    Except String (SyncSt × Bool)
  | st, stop, [] => .ok (st, stop)
  | st, stop, t :: ts =>
    match insertScrobble st.store.rows t with
    | .error e => .error e
    | .ok (res, rows') =>
      let st' : SyncSt :=
        { store :=
            { rows := rows'
              rawLog := if res.inserted > 0 then st.store.rawLog ++ [t]
                else st.store.rawLog }
          inserted := st.inserted + res.inserted
          ignored := st.ignored + res.ignored }
      syncPage maxSeen st' (stopAfter maxSeen t stop) ts

/-- The page walk of cmdSync: fetch a page, break on an empty page, else
process it and break if the stop flag was set; count fetches. -/
def syncGo (maxSeen : Int) : List (List Track) → SyncSt → Bool → Nat →
    Except String (SyncSt × Bool × Nat)
  | [], st, stop, n => .ok (st, stop, n + 1)
  | pg :: rest, st, stop, n =>
    if pg = [] then .ok (st, stop, n + 1)
    else
      match syncPage maxSeen st stop pg with
      | .error e => .error e
      | .ok (st', stop') =>
        if stop' then .ok (st', stop', n + 1)
        else syncGo maxSeen rest st' stop' (n + 1)

/-- cmdSync: read the watermark MaxPlayedAtUTS, then walk pages from page 1
with the stop flag initially clear. -/
def cmdSyncModel (feed : List (List Track)) (st0 : StoreSt) :
    Except String (SyncSt × Bool × Nat) :=
  syncGo (maxPlayedAt st0.rows) feed ⟨st0, 0, 0⟩ false 0

/-- The per-page body of cmdBackfill: identical inserts, no stop logic. -/
def backfillPage : SyncSt → List Track → Except String SyncSt
  | st, [] => .ok st
  | st, t :: ts =>
    match insertScrobble st.store.rows t with
    | .error e => .error e
    | .ok (res, rows') =>
      backfillPage
        { store :=
            { rows := rows'
              rawLog := if res.inserted > 0 then st.store.rawLog ++ [t]
                else st.store.rawLog }
          inserted := st.inserted + res.inserted
          ignored := st.ignored + res.ignored } ts

/-- The page walk of cmdBackfill with totalPages fixed at P: fetch the
page, break if it is empty, else insert it and break once page ≥ P.  The
fuel argument is kept equal to P - page, making the loop structurally
terminating; its zero branch is unreachable under that invariant. -/
def backfillGo (pages : Nat → List Track) (P : Nat) :
    Nat → Nat → SyncSt → Nat → Except String (SyncSt × Nat)
  | fuel, page, st, n =>
    if pages page = [] then .ok (st, n + 1)
    else
      match backfillPage st (pages page) with
      | .error e => .error e
      | .ok st' =>
        if P ≤ page then .ok (st', n + 1)
        else
          match fuel with
          | 0 => .ok (st', n + 1)
          | fuel' + 1 => backfillGo pages P fuel' (page + 1) st' (n + 1)

/-- cmdBackfill: totalPages is fixed from the first response, a reported 0
being treated as 1; the walk starts at page 1. -/
def cmdBackfillModel (pages : Nat → List Track) (reportedTotalPages : Nat)
    (st0 : StoreSt) : Except String (SyncSt × Nat) :=
  backfillGo pages (if reportedTotalPages = 0 then 1 else reportedTotalPages)
    ((if reportedTotalPages = 0 then 1 else reportedTotalPages) - 1) 1
    ⟨st0, 0, 0⟩ 0

/-- An insert that is not the unparsable-timestamp anomaly succeeds. -/
theorem insertScrobble_ok {rows : List Row} {t : Track}
    (h : hasTS t = false ∨ (trackHash t).isSome = true) :
    ∃ res rows', insertScrobble rows t = .ok (res, rows') := by
  cases hd : t.date with
  | none => exact ⟨⟨0, 1⟩, rows, insertScrobble_anomalies.1 rows t hd⟩
  | some d =>
    by_cases hu : d.uts = ""
    · exact ⟨⟨0, 1⟩, rows, insertScrobble_anomalies.2.1 rows t d hd hu⟩
    · cases hp : parseI64 d.uts with
      | none =>
        exfalso
        rcases h with h | h
        · simp [hasTS, hd, hu] at h
        · simp [trackHash, hd, hp] at h
      | some v =>
        by_cases hmem :
          hashPresent rows (StableSourceHash v t.artist.text t.name t.album.text) = true
        · exact ⟨⟨0, 1⟩, rows, by simp [insertScrobble, hd, if_neg hu, hp, hmem]⟩
        · refine ⟨⟨1, 0⟩, ?_, ?_⟩
          · exact rows ++
              [{ playedAtUTS := v
                 trackName := t.name
                 artistName := t.artist.text
                 albumName := nullIfEmpty t.album.text
                 trackMBID := nullIfEmpty t.mbid
                 artistMBID := nullIfEmpty t.artist.mbid
                 albumMBID := nullIfEmpty t.album.mbid
                 lastfmURL := nullIfEmpty t.url
                 sourceHash := StableSourceHash v t.artist.text t.name t.album.text }]
          · simp only [insertScrobble, hd, if_neg hu, hp]
            rw [if_neg hmem]

/-- Whether an event triggers the sync stop condition. -/
def syncHitB (maxSeen : Int) (t : Track) : Bool :=
  maxSeen != 0 &&
    (match trackUTS t with
     | some v => decide (v ≤ maxSeen)
     | none => false)

theorem stopAfter_eq (maxSeen : Int) (t : Track) (stop : Bool) :
    stopAfter maxSeen t stop = (syncHitB maxSeen t || stop) := by
  unfold stopAfter syncHitB trackUTS
  cases t.date with
  | none => simp
  | some d =>
    by_cases hu : d.uts = ""
    · simp [hu]
    · simp only [if_neg hu]
      cases parseI64 d.uts with
      | none => simp
      | some v =>
        dsimp only
        by_cases hm : maxSeen ≠ 0 ∧ v ≤ maxSeen
        · simp [hm.1, hm.2]
        · rcases not_and_or.mp hm with h | h
          · simp only [ne_eq, not_not] at h
            simp [h]
          · simp [h]

theorem syncHitB_iff (maxSeen : Int) (t : Track) :
    syncHitB maxSeen t = true ↔
      maxSeen ≠ 0 ∧ ∃ v, trackUTS t = some v ∧ v ≤ maxSeen := by
  unfold syncHitB
  cases h : trackUTS t with
  | none => simp [h]
  | some v => simp [h]

theorem syncHitB_zero (t : Track) : syncHitB 0 t = false := by
  simp [syncHitB]

/-- trackHash is the hash of the parsed timestamp. -/
theorem trackHash_eq (t : Track) :
    trackHash t =
      (trackUTS t).map (fun v => StableSourceHash v t.artist.text t.name t.album.text) := by
  unfold trackHash trackUTS
  cases t.date with
  | none => rfl
  | some d =>
    by_cases hu : d.uts = ""
    · simp only [if_pos hu, hu]
      have : parseI64 "" = none := by decide
      rw [this]
      rfl
    · simp only [if_neg hu]

/-- An event with a stored dedup key has a timestamp. -/
theorem trackHash_some_hasTS {t : Track} {h : String}
    (hh : trackHash t = some h) : hasTS t = true := by
  cases hd : t.date with
  | none => simp [trackHash, hd] at hh
  | some d =>
    by_cases hu : d.uts = ""
    · exfalso
      rw [trackHash_eq] at hh
      simp [trackUTS, hd, hu] at hh
    · simp [hasTS, hd, hu]

/-- A successful insert never loses dedup keys. -/
theorem insertScrobble_mono {rows : List Row} {t : Track} {res : InsertResult}
    {rows' : List Row} (h : insertScrobble rows t = .ok (res, rows')) :
    ∀ h0, hashPresent rows h0 = true → hashPresent rows' h0 = true := by
  cases hd : t.date with
  | none =>
    rw [insertScrobble_anomalies.1 rows t hd] at h
    simp only [Except.ok.injEq, Prod.mk.injEq] at h
    rw [← h.2]
    exact fun h0 hp0 => hp0
  | some d =>
    by_cases hu : d.uts = ""
    · rw [insertScrobble_anomalies.2.1 rows t d hd hu] at h
      simp only [Except.ok.injEq, Prod.mk.injEq] at h
      rw [← h.2]
      exact fun h0 hp0 => hp0
    · have hts : hasTS t = true := by simp [hasTS, hd, hu]
      obtain ⟨_, _, _, hmono, _⟩ := insertScrobble_hash hts h
      exact hmono

/-- The full behaviour of one sync page: it succeeds on well-formed events,
keeps all dedup keys, establishes the keys of every event of the page, and
leaves the stop flag set exactly when the page has a hit (or it was set). -/
theorem syncPage_props (maxSeen : Int) : ∀ (pg : List Track) (st : SyncSt)
    (stop : Bool),
    (∀ t ∈ pg, hasTS t = false ∨ (trackHash t).isSome = true) →
    ∃ st' stop', syncPage maxSeen st stop pg = .ok (st', stop') ∧
      (∀ h, hashPresent st.store.rows h = true →
        hashPresent st'.store.rows h = true) ∧
      (∀ t ∈ pg, ∀ h, trackHash t = some h →
        hashPresent st'.store.rows h = true) ∧
      stop' = (pg.any (fun t => syncHitB maxSeen t) || stop) := by
  intro pg
  induction pg with
  | nil =>
    intro st stop _
    exact ⟨st, stop, rfl, fun h hp => hp, by simp, by simp⟩
  | cons t ts ih =>
    intro st stop hwf
    obtain ⟨res, rows', hins⟩ := insertScrobble_ok (hwf t (by simp))
    obtain ⟨st', stop', heq, hmono, hhash, hstop⟩ :=
      ih ⟨⟨rows', if res.inserted > 0 then st.store.rawLog ++ [t]
            else st.store.rawLog⟩,
          st.inserted + res.inserted, st.ignored + res.ignored⟩
        (stopAfter maxSeen t stop) (fun u hu => hwf u (by simp [hu]))
    refine ⟨st', stop', ?_, ?_, ?_, ?_⟩
    · unfold syncPage
      rw [hins]
      exact heq
    · intro h0 hp0
      exact hmono h0 (insertScrobble_mono hins h0 hp0)
    · intro u hu h0 hh0
      rcases List.mem_cons.mp hu with h1 | h1
      · subst h1
        obtain ⟨hsh, hh, hpres, _, _⟩ :=
          insertScrobble_hash (trackHash_some_hasTS hh0) hins
        rw [hh0] at hh
        have : hsh = h0 := by
          simpa using hh.symm
        rw [← this]
        exact hmono hsh hpres
      · exact hhash u h1 h0 hh0
    · rw [hstop, stopAfter_eq]
      simp [Bool.or_assoc, Bool.or_comm, Bool.or_left_comm]

/-- A sync walk over non-empty pages with no watermark hit processes every
page, never sets the stop flag, and performs feed.length + 1 fetches (the
final fetch returns the empty page past the feed and breaks the loop). -/
theorem syncGo_no_hit (maxSeen : Int) : ∀ (feed : List (List Track))
    (st : SyncSt) (n : Nat),
    (∀ t ∈ feed.flatten, hasTS t = false ∨ (trackHash t).isSome = true) →
    (∀ pg ∈ feed, pg ≠ []) →
    (∀ t ∈ feed.flatten, syncHitB maxSeen t = false) →
    ∃ st', syncGo maxSeen feed st false n = .ok (st', false, n + feed.length + 1) ∧
      (∀ h, hashPresent st.store.rows h = true →
        hashPresent st'.store.rows h = true) ∧
      (∀ t ∈ feed.flatten, ∀ h, trackHash t = some h →
        hashPresent st'.store.rows h = true) := by
  intro feed
  induction feed with
  | nil =>
    intro st n _ _ _
    exact ⟨st, rfl, fun h hp => hp, by simp⟩
  | cons pg rest ih =>
    intro st n hwf hne hhit
    obtain ⟨st', stop', heq, hmono, hhash, hstop⟩ :=
      syncPage_props maxSeen pg st false (fun t ht => hwf t (by simp [ht]))
    have hany : pg.any (fun t => syncHitB maxSeen t) = false := by
      rw [List.any_eq_false]
      intro t ht
      simp [hhit t (by simp [ht])]
    have hstop' : stop' = false := by rw [hstop, hany]; rfl
    have hpg : ¬pg = [] := hne pg (by simp)
    obtain ⟨st'', heq2, hmono2, hhash2⟩ :=
      ih st' (n + 1) (fun t ht => hwf t (by simp [ht]))
        (fun q hq => hne q (by simp [hq]))
        (fun t ht => hhit t (by simp [ht]))
    refine ⟨st'', ?_, fun h hp => hmono2 h (hmono h hp), ?_⟩
    · calc syncGo maxSeen (pg :: rest) st false n
          = syncGo maxSeen rest st' false (n + 1) := by
            conv_lhs => unfold syncGo
            rw [if_neg hpg, heq]
            simp [hstop']
        _ = .ok (st'', false, n + 1 + rest.length + 1) := heq2
        _ = .ok (st'', false, n + (pg :: rest).length + 1) :=
            congrArg (fun m => (.ok (st'', false, m) :
              Except String (SyncSt × Bool × Nat))) (by simp; omega)
    · intro t ht h hh
      rcases (by simpa using ht : t ∈ pg ∨ ∃ l ∈ rest, t ∈ l) with h1 | ⟨l, hl, ht2⟩
      · exact hmono2 h (hhash t h1 h hh)
      · exact hhash2 t (List.mem_flatten.mpr ⟨l, hl, ht2⟩) h hh

/-- A sync walk that reaches a page containing a watermark hit: the pages
before it have no hit, the page with the hit is processed in full, the stop
flag ends true, exactly pre.length + 1 fetches happen, and no page past
the hit page is ever fetched (the run equals the run on the truncated
feed). -/
theorem syncGo_hit (maxSeen : Int) : ∀ (pre : List (List Track))
    (pg : List Track) (rest : List (List Track)) (st : SyncSt) (n : Nat),
    (∀ t ∈ (pre ++ [pg]).flatten, hasTS t = false ∨ (trackHash t).isSome = true) →
    (∀ q ∈ pre, q ≠ []) → pg ≠ [] →
    (∀ t ∈ pre.flatten, syncHitB maxSeen t = false) →
    pg.any (fun t => syncHitB maxSeen t) = true →
    ∃ st', syncGo maxSeen (pre ++ pg :: rest) st false n =
        .ok (st', true, n + pre.length + 1) ∧
      syncGo maxSeen (pre ++ [pg]) st false n =
        .ok (st', true, n + pre.length + 1) ∧
      (∀ h, hashPresent st.store.rows h = true →
        hashPresent st'.store.rows h = true) ∧
      (∀ t ∈ (pre ++ [pg]).flatten, ∀ h, trackHash t = some h →
        hashPresent st'.store.rows h = true) := by
  intro pre
  induction pre with
  | nil =>
    intro pg rest st n hwf _ hpg _ hany
    obtain ⟨st', stop', heq, hmono, hhash, hstop⟩ :=
      syncPage_props maxSeen pg st false (fun t ht => hwf t (by simpa using ht))
    have hstop' : stop' = true := by rw [hstop, hany]; rfl
    refine ⟨st', ?_, ?_, hmono, ?_⟩
    · show syncGo maxSeen (pg :: rest) st false n = .ok (st', true, n + 1)
      conv_lhs => unfold syncGo
      rw [if_neg hpg, heq]
      simp [hstop']
    · show syncGo maxSeen [pg] st false n = .ok (st', true, n + 1)
      conv_lhs => unfold syncGo
      rw [if_neg hpg, heq]
      simp [hstop']
    · intro t ht h hh
      exact hhash t (by simpa using ht) h hh
  | cons q pre' ih =>
    intro pg rest st n hwf hne hpg hnohit hany
    obtain ⟨st', stop', heq, hmono, hhash, hstop⟩ :=
      syncPage_props maxSeen q st false
        (fun t ht => hwf t (by simp [ht]))
    have hqany : q.any (fun t => syncHitB maxSeen t) = false := by
      rw [List.any_eq_false]
      intro t ht
      simp [hnohit t (by simp [ht])]
    have hstop' : stop' = false := by rw [hstop, hqany]; rfl
    have hq : ¬q = [] := hne q (by simp)
    obtain ⟨st'', heq2, heq3, hmono2, hhash2⟩ :=
      ih pg rest st' (n + 1)
        (fun t ht => hwf t (by
          simp only [List.cons_append, List.flatten_cons, List.mem_append]
          exact Or.inr ht))
        (fun r hr => hne r (by simp [hr])) hpg
        (fun t ht => hnohit t (by
          simp only [List.flatten_cons, List.mem_append]
          exact Or.inr ht)) hany
    have hstep : ∀ (tail : List (List Track)),
        syncGo maxSeen (q :: tail) st false n =
          syncGo maxSeen tail st' false (n + 1) := by
      intro tail
      conv_lhs => unfold syncGo
      rw [if_neg hq, heq]
      simp [hstop']
    refine ⟨st'', ?_, ?_, fun h hp => hmono2 h (hmono h hp), ?_⟩
    · calc syncGo maxSeen ((q :: pre') ++ pg :: rest) st false n
          = syncGo maxSeen (pre' ++ pg :: rest) st' false (n + 1) := hstep _
        _ = .ok (st'', true, n + 1 + pre'.length + 1) := heq2
        _ = .ok (st'', true, n + (q :: pre').length + 1) :=
            congrArg (fun m => (.ok (st'', true, m) :
              Except String (SyncSt × Bool × Nat))) (by simp; omega)
    · calc syncGo maxSeen ((q :: pre') ++ [pg]) st false n
          = syncGo maxSeen (pre' ++ [pg]) st' false (n + 1) := hstep _
        _ = .ok (st'', true, n + 1 + pre'.length + 1) := heq3
        _ = .ok (st'', true, n + (q :: pre').length + 1) :=
            congrArg (fun m => (.ok (st'', true, m) :
              Except String (SyncSt × Bool × Nat))) (by simp; omega)
    · intro t ht h hh
      rcases (by simpa using ht :
          t ∈ q ∨ (∃ l ∈ pre', t ∈ l) ∨ t ∈ pg) with h1 | ⟨l, hl, ht2⟩ | h2
      · exact hmono2 h (hhash t h1 h hh)
      · exact hhash2 t
          (List.mem_flatten.mpr ⟨l, List.mem_append.mpr (Or.inl hl), ht2⟩) h hh
      · exact hhash2 t
          (List.mem_flatten.mpr ⟨pg, List.mem_append.mpr (Or.inr (by simp)), h2⟩)
          h hh

/-- C3: sync termination at the watermark.  With a non-zero watermark W and
a feed of non-empty pages listing events in strictly descending timestamp
order, if the page `pg` holds the first event with timestamp ≤ W (all
events of earlier pages are above W), then sync ends with the stop flag
set after exactly pre.length + 1 fetches — the run coincides with the run
on the feed truncated after `pg`, no later page is fetched, and every event
of the processed pages (including all of `pg`, the straddling page) has its
dedup key stored.  With watermark 0, the timestamp condition never stops
the walk: all pages are processed and the walk ends on the empty page past
the feed, stop flag clear. -/
theorem sync_watermark_halt :
    (∀ (pre : List (List Track)) (pg : List Track) (rest : List (List Track))
        (st0 : StoreSt),
      maxPlayedAt st0.rows ≠ 0 →
      (∀ t ∈ (pre ++ pg :: rest).flatten, (trackUTS t).isSome = true) →
      ((pre ++ pg :: rest).flatten.filterMap trackUTS).Chain' (fun a b => b < a) →
      (∀ q ∈ pre ++ pg :: rest, q ≠ []) →
      (∀ t ∈ pre.flatten, ∀ v, trackUTS t = some v → maxPlayedAt st0.rows < v) →
      (∃ t ∈ pg, ∃ v, trackUTS t = some v ∧ v ≤ maxPlayedAt st0.rows) →
      ∃ stF, cmdSyncModel (pre ++ pg :: rest) st0 = .ok (stF, true, pre.length + 1) ∧
        cmdSyncModel (pre ++ [pg]) st0 = .ok (stF, true, pre.length + 1) ∧
        (∀ t ∈ (pre ++ [pg]).flatten, ∀ h, trackHash t = some h →
          hashPresent stF.store.rows h = true)) ∧
    (∀ (feed : List (List Track)) (st0 : StoreSt),
      maxPlayedAt st0.rows = 0 →
      (∀ t ∈ feed.flatten, hasTS t = false ∨ (trackHash t).isSome = true) →
      (∀ q ∈ feed, q ≠ []) →
      ∃ stF, cmdSyncModel feed st0 = .ok (stF, false, feed.length + 1)) := by
  constructor
  · intro pre pg rest st0 hW hts _hdesc hq hnolow hhit
    have hwf : ∀ t ∈ (pre ++ [pg]).flatten,
        hasTS t = false ∨ (trackHash t).isSome = true := by
      intro t ht
      right
      rw [trackHash_eq]
      have : t ∈ (pre ++ pg :: rest).flatten := by
        rcases List.mem_flatten.mp ht with ⟨l, hl, htl⟩
        rcases List.mem_append.mp hl with h1 | h1
        · exact List.mem_flatten.mpr ⟨l, List.mem_append.mpr (Or.inl h1), htl⟩
        · simp at h1
          subst h1
          exact List.mem_flatten.mpr ⟨l, List.mem_append.mpr (Or.inr (by simp)), htl⟩
      cases hv : trackUTS t with
      | none => exact absurd (hts t this) (by simp [hv])
      | some v => simp [hv]
    have hnohit : ∀ t ∈ pre.flatten, syncHitB (maxPlayedAt st0.rows) t = false := by
      intro t ht
      cases hv : trackUTS t with
      | none => simp [syncHitB, hv]
      | some v =>
        have hlt := hnolow t ht v hv
        simp only [syncHitB, hv]
        simp only [Bool.and_eq_false_iff]
        right
        simp
        omega
    have hany : pg.any (fun t => syncHitB (maxPlayedAt st0.rows) t) = true := by
      obtain ⟨t, ht, v, hv, hvle⟩ := hhit
      exact List.any_eq_true.mpr ⟨t, ht, (syncHitB_iff _ t).mpr ⟨hW, v, hv, hvle⟩⟩
    obtain ⟨stF, h1, h2, _, h4⟩ :=
      syncGo_hit (maxPlayedAt st0.rows) pre pg rest ⟨st0, 0, 0⟩ 0 hwf
        (fun q hq' => hq q (List.mem_append.mpr (Or.inl hq')))
        (hq pg (List.mem_append.mpr (Or.inr (by simp)))) hnohit hany
    exact ⟨stF, by simpa using h1, by simpa using h2, h4⟩
  · intro feed st0 hW0 hwf hq
    have hnohit : ∀ t ∈ feed.flatten, syncHitB (maxPlayedAt st0.rows) t = false := by
      intro t _
      rw [hW0]
      exact syncHitB_zero t
    obtain ⟨stF, h1, _, _⟩ := syncGo_no_hit (maxPlayedAt st0.rows) feed ⟨st0, 0, 0⟩ 0 hwf hq hnohit
    exact ⟨stF, by simpa using h1⟩

/-- One backfill page of well-formed events inserts without error. -/
theorem backfillPage_ok : ∀ (pg : List Track) (st : SyncSt),
    (∀ t ∈ pg, hasTS t = false ∨ (trackHash t).isSome = true) →
    ∃ st', backfillPage st pg = .ok st' := by
  intro pg
  induction pg with
  | nil => intro st _; exact ⟨st, rfl⟩
  | cons t ts ih =>
    intro st hwf
    obtain ⟨res, rows', hins⟩ := insertScrobble_ok (hwf t (by simp))
    obtain ⟨st', heq⟩ :=
      ih ⟨⟨rows', if res.inserted > 0 then st.store.rawLog ++ [t]
            else st.store.rawLog⟩,
          st.inserted + res.inserted, st.ignored + res.ignored⟩
        (fun u hu => hwf u (by simp [hu]))
    refine ⟨st', ?_⟩
    unfold backfillPage
    rw [hins]
    exact heq

/-- A backfill walk over non-empty pages performs one fetch per remaining
page and stops when page reaches totalPages. -/
theorem backfillGo_full (pages : Nat → List Track) (P : Nat)
    (hwf : ∀ i, ∀ t ∈ pages i, hasTS t = false ∨ (trackHash t).isSome = true) :
    ∀ (fuel page : Nat) (st : SyncSt) (n : Nat),
    P = page + fuel →
    (∀ i, page ≤ i → i ≤ P → pages i ≠ []) →
    ∃ st', backfillGo pages P fuel page st n = .ok (st', n + fuel + 1) := by
  intro fuel
  induction fuel with
  | zero =>
    intro page st n hP hne
    have hpg : ¬pages page = [] := hne page le_rfl (by omega)
    obtain ⟨st', heq⟩ := backfillPage_ok (pages page) st (hwf page)
    refine ⟨st', ?_⟩
    unfold backfillGo
    rw [if_neg hpg, heq]
    dsimp only
    rw [if_pos (by omega : P ≤ page)]
  | succ fuel ih =>
    intro page st n hP hne
    have hpg : ¬pages page = [] := hne page le_rfl (by omega)
    obtain ⟨st1, heq⟩ := backfillPage_ok (pages page) st (hwf page)
    obtain ⟨st', heq2⟩ := ih (page + 1) st1 (n + 1) (by omega)
      (fun i h1 h2 => hne i (by omega) h2)
    refine ⟨st', ?_⟩
    conv_lhs => unfold backfillGo
    rw [if_neg hpg, heq]
    dsimp only
    rw [if_neg (by omega : ¬P ≤ page)]
    exact heq2.trans (congrArg (fun m => (Except.ok (st', m) : Except String (SyncSt × Nat))) (by omega))

/-- A backfill walk that meets an empty page at position k halts there. -/
theorem backfillGo_empty (pages : Nat → List Track) (P : Nat)
    (hwf : ∀ i, ∀ t ∈ pages i, hasTS t = false ∨ (trackHash t).isSome = true) :
    ∀ (fuel page k : Nat) (st : SyncSt) (n : Nat),
    P = page + fuel → page ≤ k → k ≤ P →
    (∀ i, page ≤ i → i < k → pages i ≠ []) → pages k = [] →
    ∃ st', backfillGo pages P fuel page st n = .ok (st', n + (k - page) + 1) := by
  intro fuel
  induction fuel with
  | zero =>
    intro page k st n hP hpk hkP hne hk
    have hkp : k = page := by omega
    subst hkp
    refine ⟨st, ?_⟩
    unfold backfillGo
    rw [if_pos hk]
    exact congrArg (fun m => (Except.ok (st, m) : Except String (SyncSt × Nat))) (by omega)
  | succ fuel ih =>
    intro page k st n hP hpk hkP hne hk
    by_cases hkp : k = page
    · subst hkp
      refine ⟨st, ?_⟩
      conv_lhs => unfold backfillGo
      rw [if_pos hk]
      exact congrArg (fun m => (Except.ok (st, m) : Except String (SyncSt × Nat))) (by omega)
    · have hpg : ¬pages page = [] := hne page le_rfl (by omega)
      obtain ⟨st1, heq⟩ := backfillPage_ok (pages page) st (hwf page)
      obtain ⟨st', heq2⟩ := ih (page + 1) k st1 (n + 1) (by omega) (by omega) hkP
        (fun i h1 h2 => hne i (by omega) h2) hk
      refine ⟨st', ?_⟩
      conv_lhs => unfold backfillGo
      rw [if_neg hpg, heq]
      dsimp only
      rw [if_neg (by omega : ¬P ≤ page)]
      exact heq2.trans (congrArg (fun m => (Except.ok (st', m) : Except String (SyncSt × Nat))) (by omega))

/-- C4: backfill termination.  With the first response reporting totalPages
= P0 (a reported 0 treated as 1, giving P), backfill performs exactly P
page fetches starting at page 1 and terminates when no page among 1..P is
empty; if instead page k (1 ≤ k ≤ P) is the first empty page fetched, it
halts there with exactly k fetches, never fetching further pages. -/
theorem backfill_fetch_count :
    (∀ (pages : Nat → List Track) (P0 : Nat) (st0 : StoreSt),
      (∀ i, ∀ t ∈ pages i, hasTS t = false ∨ (trackHash t).isSome = true) →
      (∀ i, 1 ≤ i → i ≤ (if P0 = 0 then 1 else P0) → pages i ≠ []) →
      ∃ stF, cmdBackfillModel pages P0 st0 =
        .ok (stF, if P0 = 0 then 1 else P0)) ∧
    (∀ (pages : Nat → List Track) (P0 : Nat) (st0 : StoreSt) (k : Nat),
      (∀ i, ∀ t ∈ pages i, hasTS t = false ∨ (trackHash t).isSome = true) →
      1 ≤ k → k ≤ (if P0 = 0 then 1 else P0) →
      (∀ i, 1 ≤ i → i < k → pages i ≠ []) → pages k = [] →
      ∃ stF, cmdBackfillModel pages P0 st0 = .ok (stF, k)) := by
  have hP1 : ∀ P0 : Nat, 1 ≤ (if P0 = 0 then 1 else P0) := by
    intro P0
    by_cases h : P0 = 0
    · simp [h]
    · simp [h]
      omega
  constructor
  · intro pages P0 st0 hwf hne
    obtain ⟨stF, heq⟩ := backfillGo_full pages (if P0 = 0 then 1 else P0) hwf
      ((if P0 = 0 then 1 else P0) - 1) 1 ⟨st0, 0, 0⟩ 0
      (by have := hP1 P0; omega) hne
    refine ⟨stF, ?_⟩
    rw [cmdBackfillModel, heq]
    exact congrArg (fun m => (Except.ok (stF, m) : Except String (SyncSt × Nat))) (by have := hP1 P0; omega)
  · intro pages P0 st0 k hwf hk1 hkP hne hk
    obtain ⟨stF, heq⟩ := backfillGo_empty pages (if P0 = 0 then 1 else P0) hwf
      ((if P0 = 0 then 1 else P0) - 1) 1 k ⟨st0, 0, 0⟩ 0
      (by have := hP1 P0; omega) hk1 hkP
      (fun i h1 h2 => hne i h1 h2) hk
    refine ⟨stF, ?_⟩
    rw [cmdBackfillModel, heq]
    exact congrArg (fun m => (Except.ok (stF, m) : Except String (SyncSt × Nat))) (by omega)

/-- Witness for the sync-termination theorem: a store with watermark 100, a
first page straddling the watermark (events 150 and 50), and a later page
that is never fetched; and the zero-watermark walk on a one-page feed. -/
theorem sync_watermark_halt_witness :
    (∃ stF, cmdSyncModel
        [[⟨"y", "", "", ⟨"a", ""⟩, ⟨"", ""⟩, some ⟨"150", ""⟩⟩,
          ⟨"z", "", "", ⟨"a", ""⟩, ⟨"", ""⟩, some ⟨"50", ""⟩⟩],
         [⟨"w", "", "", ⟨"a", ""⟩, ⟨"", ""⟩, some ⟨"10", ""⟩⟩]]
        ⟨[⟨100, "t0", "a0", none, none, none, none, none, "h100"⟩], []⟩ =
        .ok (stF, true, 1) ∧
      cmdSyncModel
        [[⟨"y", "", "", ⟨"a", ""⟩, ⟨"", ""⟩, some ⟨"150", ""⟩⟩,
          ⟨"z", "", "", ⟨"a", ""⟩, ⟨"", ""⟩, some ⟨"50", ""⟩⟩]]
        ⟨[⟨100, "t0", "a0", none, none, none, none, none, "h100"⟩], []⟩ =
        .ok (stF, true, 1) ∧
      (∀ t ∈ ([[⟨"y", "", "", ⟨"a", ""⟩, ⟨"", ""⟩, some ⟨"150", ""⟩⟩,
          ⟨"z", "", "", ⟨"a", ""⟩, ⟨"", ""⟩, some ⟨"50", ""⟩⟩]] :
            List (List Track)).flatten, ∀ h, trackHash t = some h →
        hashPresent stF.store.rows h = true)) ∧
    (∃ stF, cmdSyncModel
        [[⟨"y", "", "", ⟨"a", ""⟩, ⟨"", ""⟩, some ⟨"150", ""⟩⟩]] ⟨[], []⟩ =
        .ok (stF, false, 2)) := by
  constructor
  · exact sync_watermark_halt.1 []
      [⟨"y", "", "", ⟨"a", ""⟩, ⟨"", ""⟩, some ⟨"150", ""⟩⟩,
       ⟨"z", "", "", ⟨"a", ""⟩, ⟨"", ""⟩, some ⟨"50", ""⟩⟩]
      [[⟨"w", "", "", ⟨"a", ""⟩, ⟨"", ""⟩, some ⟨"10", ""⟩⟩]]
      ⟨[⟨100, "t0", "a0", none, none, none, none, none, "h100"⟩], []⟩
      (by decide) (by decide)
      (by
        show List.Chain' (fun a b : Int => b < a) [150, 50, 10]
        refine List.chain'_cons.mpr ⟨by norm_num, ?_⟩
        refine List.chain'_cons.mpr ⟨by norm_num, ?_⟩
        simp)
      (by decide) (by simp)
      ⟨⟨"z", "", "", ⟨"a", ""⟩, ⟨"", ""⟩, some ⟨"50", ""⟩⟩, by decide, 50,
        rfl, by decide⟩
  · exact sync_watermark_halt.2
      [[⟨"y", "", "", ⟨"a", ""⟩, ⟨"", ""⟩, some ⟨"150", ""⟩⟩]] ⟨[], []⟩
      (by decide) (by decide) (by decide)

/-- Witness for the backfill-termination theorem: a constant non-empty feed
with totalPages = 2 performs exactly 2 fetches; a feed whose page 2 is the
first empty page halts after 2 fetches although totalPages = 3. -/
theorem backfill_fetch_count_witness :
    (∃ stF, cmdBackfillModel
        (fun _ => [⟨"y", "", "", ⟨"a", ""⟩, ⟨"", ""⟩, some ⟨"150", ""⟩⟩]) 2
        ⟨[], []⟩ = .ok (stF, 2)) ∧
    (∃ stF, cmdBackfillModel
        (fun i => if i = 1 then [⟨"y", "", "", ⟨"a", ""⟩, ⟨"", ""⟩, some ⟨"150", ""⟩⟩]
          else []) 3 ⟨[], []⟩ = .ok (stF, 2)) := by
  constructor
  · exact backfill_fetch_count.1
      (fun _ => [⟨"y", "", "", ⟨"a", ""⟩, ⟨"", ""⟩, some ⟨"150", ""⟩⟩]) 2 ⟨[], []⟩
      (by
        intro i t ht
        simp at ht
        subst ht
        right
        rfl)
      (by
        intro i _ _
        simp)
  · exact backfill_fetch_count.2
      (fun i => if i = 1 then [⟨"y", "", "", ⟨"a", ""⟩, ⟨"", ""⟩, some ⟨"150", ""⟩⟩]
        else []) 3 ⟨[], []⟩ 2
      (by
        intro i t ht
        by_cases hi : i = 1
        · simp [hi] at ht
          subst ht
          right
          rfl
        · simp [hi] at ht)
      (by decide) (by decide)
      (by
        intro i h1 h2
        have : i = 1 := by omega
        simp [this])
      (by decide)

/-! ### IsRetryable (internal/lastfm) and getPageWithRetry

The remote call is an oracle from attempt number (starting at 1) to
outcome.  getPageWithRetry has maxAttempts = 8, backoff starting at 1s and
doubling while under 30s (so the slept delays are 1,2,4,8,16,32,32,…). -/

/-- The error taxonomy of the lastfm client. -/
inductive LfmErr where
  | httpErr (status : Nat) (body : String)
  | apiErr (code : Int) (msg : String)
  | decodeErr (msg : String)
deriving DecidableEq, Repr

/-- lastfm.IsRetryable: transient upstream failures (HTTP ≥ 500), HTTP 429,
or Last.fm API error 29 (rate limit exceeded); everything else is fatal. -/
def IsRetryable : LfmErr → Bool
  | .httpErr status _ =>
    if 500 ≤ status then true
    else if status = 429 then true
    else false
  | .apiErr code _ => code == 29
  | .decodeErr _ => false

/-- The loop of getPageWithRetry.  Arguments: fuel (= 8 - attempt, making
the loop structural; its zero branch is unreachable under that invariant),
the attempt number, the current backoff in seconds, and the delays slept so
far.  Returns the result, the attempt count, and the slept delays. -/
def retryGo (call : Nat → Except LfmErr Page) :
    Nat → Nat → Nat → List Nat → Except LfmErr Page × Nat × List Nat
  | fuel, attempt, backoff, delays =>
    match call attempt with
    | .ok p => (.ok p, attempt, delays)
    | .error e =>
      if IsRetryable e = false ∨ attempt = 8 then (.error e, attempt, delays)
      else
        match fuel with
        | 0 => (.error e, attempt, delays)
        | fuel' + 1 =>
          retryGo call fuel' (attempt + 1)
            (if backoff < 30 then backoff * 2 else backoff)
            (delays ++ [backoff])

/-- getPageWithRetry: attempts start at 1 with backoff 1s. -/
def getPageWithRetry (call : Nat → Except LfmErr Page) :
    Except LfmErr Page × Nat × List Nat :=
  retryGo call 7 1 1 []

/-- The backoff values the loop can hold. -/
theorem backoff_step_mem {b : Nat} (hb : b ∈ ([1, 2, 4, 8, 16, 32] : List Nat)) :
    (if b < 30 then b * 2 else b) ∈ ([1, 2, 4, 8, 16, 32] : List Nat) := by
  fin_cases hb <;> decide

theorem backoff_step_ge {b : Nat} : b ≤ (if b < 30 then b * 2 else b) := by
  by_cases h : b < 30 <;> simp [h] <;> omega

/-- N retryable failures then a success, all within the attempt budget:
the loop returns the success at attempt (start + N), having slept a
non-decreasing sequence of N delays, each at most the 32-second cap. -/
theorem retryGo_succ_after (call : Nat → Except LfmErr Page) (p : Page) :
    ∀ (N fuel attempt backoff : Nat) (delays : List Nat),
    attempt + fuel = 8 →
    backoff ∈ ([1, 2, 4, 8, 16, 32] : List Nat) →
    delays.Chain' (· ≤ ·) → (∀ d ∈ delays, d ≤ backoff) →
    (∀ i, attempt ≤ i → i < attempt + N →
      ∃ e, call i = .error e ∧ IsRetryable e = true) →
    call (attempt + N) = .ok p →
    attempt + N ≤ 8 →
    ∃ ds, retryGo call fuel attempt backoff delays = (.ok p, attempt + N, ds) ∧
      ds.Chain' (· ≤ ·) ∧ (∀ d ∈ ds, d ≤ 32) ∧ ds.length = delays.length + N := by
  intro N
  induction N with
  | zero =>
    intro fuel attempt backoff delays _ hbmem hchain hbound _ hok _
    refine ⟨delays, ?_, hchain, ?_, by omega⟩
    · unfold retryGo
      rw [show call attempt = .ok p from hok]
      rfl
    · intro d hd
      have h1 := hbound d hd
      have h2 : backoff ≤ 32 := by fin_cases hbmem <;> omega
      omega
  | succ N ih =>
    intro fuel attempt backoff delays hfuel hbmem hchain hbound hfail hok hle
    obtain ⟨e, hcall, hret⟩ := hfail attempt le_rfl (by omega)
    have hne8 : attempt ≠ 8 := by omega
    have hfuel1 : 1 ≤ fuel := by omega
    obtain ⟨fuel', hfuel'⟩ : ∃ fuel', fuel = fuel' + 1 :=
      ⟨fuel - 1, by omega⟩
    subst hfuel'
    have hb32 : backoff ≤ 32 := by fin_cases hbmem <;> omega
    obtain ⟨ds, heq, hchain', hb', hlen⟩ :=
      ih fuel' (attempt + 1) (if backoff < 30 then backoff * 2 else backoff)
        (delays ++ [backoff]) (by omega) (backoff_step_mem hbmem)
        (by
          rw [List.chain'_append]
          refine ⟨hchain, by simp, ?_⟩
          intro x hx y hy
          simp at hy
          subst hy
          exact hbound x (List.mem_of_mem_getLast? hx))
        (by
          intro d hd
          rcases List.mem_append.mp hd with h1 | h1
          · exact le_trans (hbound d h1) backoff_step_ge
          · simp at h1
            subst h1
            exact backoff_step_ge)
        (by
          intro i h1 h2
          exact hfail i (by omega) (by omega))
        (by rw [show attempt + 1 + N = attempt + (N + 1) by omega]; exact hok)
        (by omega)
    refine ⟨ds, ?_, hchain', hb', by simp at hlen ⊢; omega⟩
    conv_lhs => unfold retryGo
    rw [hcall]
    dsimp only
    have hcond : ¬(IsRetryable e = false ∨ attempt = 8) := by
      rw [hret]
      simp [hne8]
    rw [if_neg hcond]
    rw [heq]
    exact congrArg
      (fun m => ((.ok p, m, ds) : Except LfmErr Page × Nat × List Nat))
      (by omega)

/-- All 8 attempts fail retryably: the loop returns the 8th attempt's own
error after exactly 8 attempts. -/
theorem retryGo_exhaust (call : Nat → Except LfmErr Page) (e8 : LfmErr) :
    ∀ (fuel attempt backoff : Nat) (delays : List Nat),
    attempt + fuel = 8 →
    (∀ i, attempt ≤ i → i ≤ 8 → ∃ e, call i = .error e ∧ IsRetryable e = true) →
    call 8 = .error e8 →
    ∃ ds, retryGo call fuel attempt backoff delays = (.error e8, 8, ds) := by
  intro fuel
  induction fuel with
  | zero =>
    intro attempt backoff delays hfuel _ hcall8
    have h8 : attempt = 8 := by omega
    subst h8
    refine ⟨delays, ?_⟩
    unfold retryGo
    rw [hcall8]
    dsimp only
    rw [if_pos (Or.inr rfl)]
  | succ fuel ih =>
    intro attempt backoff delays hfuel hfail hcall8
    obtain ⟨e, hcall, hret⟩ := hfail attempt le_rfl (by omega)
    have hne8 : attempt ≠ 8 := by omega
    obtain ⟨ds, heq⟩ := ih (attempt + 1)
      (if backoff < 30 then backoff * 2 else backoff) (delays ++ [backoff])
      (by omega) (fun i h1 h2 => hfail i (by omega) h2) hcall8
    refine ⟨ds, ?_⟩
    conv_lhs => unfold retryGo
    rw [hcall]
    dsimp only
    rw [if_neg (by rw [hret]; simp [hne8])]
    exact heq

/-- A non-retryable failure at attempt k (after k-1 retryable ones) is
propagated immediately: the loop returns that error itself at attempt k. -/
theorem retryGo_fatal (call : Nat → Except LfmErr Page) (e : LfmErr) :
    ∀ (fuel attempt backoff : Nat) (delays : List Nat) (k : Nat),
    attempt + fuel = 8 → attempt ≤ k → k ≤ 8 →
    (∀ i, attempt ≤ i → i < k → ∃ e', call i = .error e' ∧ IsRetryable e' = true) →
    call k = .error e → IsRetryable e = false →
    ∃ ds, retryGo call fuel attempt backoff delays = (.error e, k, ds) := by
  intro fuel
  induction fuel with
  | zero =>
    intro attempt backoff delays k hfuel hak hk8 _ hcall hfatal
    have h8 : attempt = 8 := by omega
    have hk : k = 8 := by omega
    subst h8
    subst hk
    refine ⟨delays, ?_⟩
    unfold retryGo
    rw [hcall]
    dsimp only
    rw [if_pos (Or.inl hfatal)]
  | succ fuel ih =>
    intro attempt backoff delays k hfuel hak hk8 hfail hcall hfatal
    by_cases hka : k = attempt
    · subst hka
      refine ⟨delays, ?_⟩
      unfold retryGo
      rw [hcall]
      dsimp only
      rw [if_pos (Or.inl hfatal)]
    · obtain ⟨e', hcall', hret'⟩ := hfail attempt le_rfl (by omega)
      have hne8 : attempt ≠ 8 := by omega
      obtain ⟨ds, heq⟩ := ih (attempt + 1)
        (if backoff < 30 then backoff * 2 else backoff) (delays ++ [backoff]) k
        (by omega) (by omega) hk8
        (fun i h1 h2 => hfail i (by omega) h2) hcall hfatal
      refine ⟨ds, ?_⟩
      conv_lhs => unfold retryGo
      rw [hcall']
      dsimp only
      rw [if_neg (by rw [hret']; simp [hne8])]
      exact heq

/-- C5: the retry bound of getPageWithRetry.  (1) N consecutive retryable
failures followed by a success give exactly N+1 attempts, with slept
backoff delays non-decreasing and capped at 32 seconds, precisely when
N < 8, the attempt cap.  (2) If the first 8 attempts all fail retryably,
the loop makes exactly 8 attempts and returns the 8th attempt's own error
(never a synthetic one).  (3) A non-retryable error at any attempt k ≤ 8
is returned immediately, itself, after exactly k attempts.  (4) An error
is retryable exactly when it is an HTTP failure with status ≥ 500 or 429,
or the remote API error code 29. -/
theorem getPageWithRetry_bound :
    (∀ (call : Nat → Except LfmErr Page) (p : Page) (N : Nat),
      N < 8 →
      (∀ i, 1 ≤ i → i ≤ N → ∃ e, call i = .error e ∧ IsRetryable e = true) →
      call (N + 1) = .ok p →
      ∃ ds, getPageWithRetry call = (.ok p, N + 1, ds) ∧
        ds.length = N ∧ ds.Chain' (· ≤ ·) ∧ ∀ d ∈ ds, d ≤ 32) ∧
    (∀ (call : Nat → Except LfmErr Page) (e8 : LfmErr),
      (∀ i, 1 ≤ i → i ≤ 8 → ∃ e, call i = .error e ∧ IsRetryable e = true) →
      call 8 = .error e8 →
      ∃ ds, getPageWithRetry call = (.error e8, 8, ds)) ∧
    (∀ (call : Nat → Except LfmErr Page) (e : LfmErr) (k : Nat),
      1 ≤ k → k ≤ 8 →
      (∀ i, 1 ≤ i → i < k → ∃ e', call i = .error e' ∧ IsRetryable e' = true) →
      call k = .error e → IsRetryable e = false →
      ∃ ds, getPageWithRetry call = (.error e, k, ds)) ∧
    (∀ e, IsRetryable e = true ↔
      ((∃ s b, e = .httpErr s b ∧ (500 ≤ s ∨ s = 429)) ∨
        ∃ m, e = .apiErr 29 m)) := by
  refine ⟨?_, ?_, ?_, ?_⟩
  · intro call p N hN hfail hok
    obtain ⟨ds, heq, hchain, hbound, hlen⟩ :=
      retryGo_succ_after call p N 7 1 1 [] (by omega) (by decide) (by simp)
        (by simp) (fun i h1 h2 => hfail i h1 (by omega))
        (by rw [show 1 + N = N + 1 by omega]; exact hok) (by omega)
    refine ⟨ds, ?_, by simpa using hlen, hchain, hbound⟩
    rw [show getPageWithRetry call = retryGo call 7 1 1 [] from rfl, heq]
    exact congrArg
      (fun m => ((.ok p, m, ds) : Except LfmErr Page × Nat × List Nat))
      (by omega)
  · intro call e8 hfail hcall8
    obtain ⟨ds, heq⟩ := retryGo_exhaust call e8 7 1 1 [] (by omega)
      (fun i h1 h2 => hfail i h1 h2) hcall8
    exact ⟨ds, heq⟩
  · intro call e k hk1 hk8 hfail hcall hfatal
    obtain ⟨ds, heq⟩ := retryGo_fatal call e 7 1 1 [] k (by omega) hk1 hk8
      (fun i h1 h2 => hfail i h1 h2) hcall hfatal
    exact ⟨ds, heq⟩
  · intro e
    cases e with
    | httpErr s b =>
      constructor
      · intro h
        left
        refine ⟨s, b, rfl, ?_⟩
        by_cases h5 : 500 ≤ s
        · exact Or.inl h5
        · right
          by_cases h4 : s = 429
          · exact h4
          · simp [IsRetryable, h5, h4] at h
      · rintro (⟨s', b', heq, h5⟩ | ⟨m, heq⟩)
        · obtain ⟨rfl, rfl⟩ := by
            have := heq
            simp only [LfmErr.httpErr.injEq] at this
            exact this
          rcases h5 with h5 | h5
          · simp [IsRetryable, h5]
          · simp [IsRetryable, h5]
        · exact absurd heq (by simp)
    | apiErr c m =>
      constructor
      · intro h
        right
        refine ⟨m, ?_⟩
        have : c = 29 := by simpa [IsRetryable] using h
        rw [this]
      · rintro (⟨s', b', heq, _⟩ | ⟨m', heq⟩)
        · exact absurd heq (by simp)
        · have : c = 29 := by
            have := heq
            simp only [LfmErr.apiErr.injEq] at this
            exact this.1
          simp [IsRetryable, this]
    | decodeErr m =>
      constructor
      · intro h
        simp [IsRetryable] at h
      · rintro (⟨s', b', heq, _⟩ | ⟨m', heq⟩) <;> exact absurd heq (by simp)

/-- Witness for the retry-bound theorem: two 503 failures then success
(3 attempts); eight rate-limit failures (error of attempt 8 returned); an
immediate decode failure (returned at attempt 1); and the retryability
characterization at a 503. -/
theorem getPageWithRetry_bound_witness :
    (∃ ds, getPageWithRetry
        (fun i => if i ≤ 2 then .error (.httpErr 503 "x") else .ok ⟨[], 1, 1, 0⟩) =
        (.ok ⟨[], 1, 1, 0⟩, 3, ds) ∧ ds.length = 2 ∧ ds.Chain' (· ≤ ·) ∧
        ∀ d ∈ ds, d ≤ 32) ∧
    (∃ ds, getPageWithRetry (fun _ => .error (.apiErr 29 "rate")) =
        (.error (.apiErr 29 "rate"), 8, ds)) ∧
    (∃ ds, getPageWithRetry (fun _ => .error (.decodeErr "bad")) =
        (.error (.decodeErr "bad"), 1, ds)) ∧
    (IsRetryable (.httpErr 503 "x") = true ↔
      ((∃ s b, (.httpErr 503 "x" : LfmErr) = .httpErr s b ∧ (500 ≤ s ∨ s = 429)) ∨
        ∃ m, (.httpErr 503 "x" : LfmErr) = .apiErr 29 m)) :=
  ⟨getPageWithRetry_bound.1
      (fun i => if i ≤ 2 then .error (.httpErr 503 "x") else .ok ⟨[], 1, 1, 0⟩)
      ⟨[], 1, 1, 0⟩ 2 (by omega)
      (fun i h1 h2 => ⟨.httpErr 503 "x", by simp [h2], rfl⟩) rfl,
   getPageWithRetry_bound.2.1 (fun _ => .error (.apiErr 29 "rate"))
      (.apiErr 29 "rate") (fun i h1 h2 => ⟨.apiErr 29 "rate", rfl, rfl⟩) rfl,
   getPageWithRetry_bound.2.2.1 (fun _ => .error (.decodeErr "bad"))
      (.decodeErr "bad") 1 (by omega) (by omega)
      (fun i h1 h2 => absurd h2 (by omega)) rfl rfl,
   getPageWithRetry_bound.2.2.2 (.httpErr 503 "x")⟩

/-! ### Digest queries (internal/digest)

SQL over the scrobbles table is modelled as list computations over the
table scan (insertion) order.  GROUP BY produces one entry per key in
first-appearance order; ORDER BY is a stable insertion sort, which is how a
fixed SQLite file behaves deterministically (SQL leaves the tie order
unspecified; the model fixes the scan order).  LIMIT is List.take.
Negative limits are not modelled (Go ints; all call sites pass positive
defaults). -/

def minSaneUTS : Int := 946684800

/-- Keys of a list in first-appearance order (GROUP BY output order of a
table scan). -/
def uniqAux {κ : Type} [DecidableEq κ] : List κ → List κ → List κ
  | [], _ => []
  | k :: ks, seen => if k ∈ seen then uniqAux ks seen else k :: uniqAux ks (k :: seen)

def uniqKeys {κ : Type} [DecidableEq κ] (l : List κ) : List κ := uniqAux l []

/-- MAX with SQL COALESCE(…, 0) on the empty group. -/
def listMaxInt0 : List Int → Int
  | [] => 0
  | x :: xs => xs.foldl max x

/-- MIN with NULL reported as 0 (store.nullI64). -/
def listMinInt0 : List Int → Int
  | [] => 0
  | x :: xs => xs.foldl min x

/-- Map with a running index (rank assignment in the row scan). -/
def withIndexFrom {α β : Type} (f : Nat → α → β) : Nat → List α → List β
  | _, [] => []
  | i, x :: xs => f i x :: withIndexFrom f (i + 1) xs

/-- A row predicate: the row is dated (timestamp at or above the sane
epoch). -/
def datedP (r : Row) : Bool := decide (minSaneUTS ≤ r.playedAtUTS)

/-- Rows inside a trailing day-window ending now (played_at_uts ≥ minSane
AND played_at_uts ≥ now - days·86400). -/
def windowP (now : Int) (days : Int) (r : Row) : Bool :=
  decide (minSaneUTS ≤ r.playedAtUTS) && decide (now - days * 86400 ≤ r.playedAtUTS)

/-- The row has a non-NULL, non-empty album. -/
def albumOK (r : Row) : Bool :=
  match r.albumName with
  | none => false
  | some s => s != ""

/-- The (artist, track) GROUP BY key. -/
def trackKey (r : Row) : String × String := (r.artistName, r.trackName)

/-- The (artist, album) GROUP BY key (albums are non-NULL, non-empty where
it is used). -/
def albumKey (r : Row) : String × String := (r.artistName, r.albumName.getD "")

/-- Dated rows with a usable album. -/
def datedAlbumP (r : Row) : Bool := datedP r && albumOK r

/-- COUNT(*) of a key's group among the rows passing p. -/
def playsOf (p : Row → Bool) (key : Row → String × String) (rows : List Row)
    (k : String × String) : Nat :=
  ((rows.filter p).filter (fun r => key r = k)).length

/-- MAX(played_at_uts) of a key's group among the rows passing p. -/
def lastPlayedOf (p : Row → Bool) (key : Row → String × String) (rows : List Row)
    (k : String × String) : Int :=
  listMaxInt0 (((rows.filter p).filter (fun r => key r = k)).map
    (fun r => r.playedAtUTS))

/-- One GROUP BY output row. -/
structure GroupEntry where
  k1 : String
  k2 : String
  plays : Nat
  last : Int
deriving DecidableEq, Repr

/-- GROUP BY key over the rows passing p, with COUNT(*) and
MAX(played_at_uts), in first-appearance scan order. -/
def groupStats (p : Row → Bool) (key : Row → String × String) (rows : List Row) :
    List GroupEntry :=
  (uniqKeys ((rows.filter p).map key)).map
    (fun k => ⟨k.1, k.2, playsOf p key rows k, lastPlayedOf p key rows k⟩)

/-- The stable ORDER BY plays DESC relation. -/
def byPlaysDesc (a b : GroupEntry) : Prop := b.plays ≤ a.plays

instance : DecidableRel byPlaysDesc := fun a b => Nat.decLe b.plays a.plays

/-! Output record types of the digest (internal/digest). -/

structure RankedArtist where
  rank : Nat
  artist : String
  plays : Nat
deriving DecidableEq, Repr

structure RankedTrack where
  rank : Nat
  artist : String
  track : String
  plays : Nat
  lastPlayedUTS : Int
deriving DecidableEq, Repr

structure RankedAlbum where
  rank : Nat
  artist : String
  album : String
  plays : Nat
  lastPlayedUTS : Int
deriving DecidableEq, Repr

structure YearlyArtist where
  year : Int
  rank : Nat
  artist : String
  plays : Nat
deriving DecidableEq, Repr

structure SignatureArtist where
  rank : Nat
  artist : String
  yearsInTop : Nat
  firstYear : Int
  lastYear : Int
  playsInTopYears : Nat
deriving DecidableEq, Repr

structure ScrobbleOut where
  playedAtUTS : Int
  playedAt : String
  artist : String
  track : String
  album : String
deriving DecidableEq, Repr

structure DigestMeta where
  generatedAtUTS : Int
  scrobblesTotal : Nat
  scrobblesDated : Nat
  scrobblesSuspect : Nat
  datedMinUTS : Int
  datedMaxUTS : Int
deriving DecidableEq, Repr

structure TopLists where
  artists30d : List RankedArtist
  artists365d : List RankedArtist
  tracks30d : List RankedTrack
  albums30d : List RankedAlbum
deriving DecidableEq, Repr

structure ResurfaceLists where
  tracks180d : List RankedTrack
  albums180d : List RankedAlbum
deriving DecidableEq, Repr

structure DigestDoc where
  meta : DigestMeta
  recent : List ScrobbleOut
  top : TopLists
  resurface : ResurfaceLists
  yearlyTopArtists : List YearlyArtist
  signatureArtists : List SignatureArtist
deriving DecidableEq, Repr

structure DigestOptions where
  recentLimit : Nat
  topArtistsLimit : Nat
  topTracksLimit : Nat
  topAlbumsLimit : Nat
  yearlyTopArtistsPerYear : Nat
  signatureLimit : Nat
  signatureMinYears : Nat
deriving DecidableEq, Repr

def defaultDigestOptions : DigestOptions :=
  ⟨150, 25, 50, 40, 10, 50, 5⟩

/-! Calendar rendering: strftime('%Y', …, 'unixepoch') and the RFC3339
PlayedAt string of recent entries, via the standard civil-from-days
algorithm. -/

/-- Gregorian (year, month, day) of a day count since 1970-01-01. -/
def civilFromDays (z : Int) : Int × Int × Int :=
  let z' := z + 719468
  let era := z'.fdiv 146097
  let doe := z' - era * 146097
  let yoe := (doe - doe.fdiv 1460 + doe.fdiv 36524 - doe.fdiv 146096).fdiv 365
  let y := yoe + era * 400
  let doy := doe - (365 * yoe + yoe.fdiv 4 - yoe.fdiv 100)
  let mp := (5 * doy + 2).fdiv 153
  let d := doy - (153 * mp + 2).fdiv 5 + 1
  let m := mp + (if mp < 10 then 3 else -9)
  (if m ≤ 2 then y + 1 else y, m, d)

/-- The calendar year of a unix timestamp (UTC). -/
def yearOf (uts : Int) : Int := (civilFromDays (uts.fdiv 86400)).1

def pad2 (n : Int) : String := if n < 10 then "0" ++ toString n else toString n

def pad4 (n : Int) : String :=
  if n < 10 then "000" ++ toString n
  else if n < 100 then "00" ++ toString n
  else if n < 1000 then "0" ++ toString n
  else toString n

/-- time.Unix(uts, 0).UTC().Format(time.RFC3339). -/
def rfc3339 (uts : Int) : String :=
  let days := uts.fdiv 86400
  let secs := uts.emod 86400
  let ymd := civilFromDays days
  pad4 ymd.1 ++ "-" ++ pad2 ymd.2.1 ++ "-" ++ pad2 ymd.2.2 ++ "T" ++
    pad2 (secs.fdiv 3600) ++ ":" ++ pad2 ((secs.fdiv 60).emod 60) ++ ":" ++
    pad2 (secs.emod 60) ++ "Z"

/-! The individual digest queries. -/

/-- digest.computeMeta (GeneratedAt is the fixed "now"). -/
def metaModel (now : Int) (rows : List Row) : DigestMeta :=
  ⟨now, rows.length, (rows.filter datedP).length,
    (rows.filter (fun r => decide (r.playedAtUTS < minSaneUTS))).length,
    listMinInt0 ((rows.filter datedP).map (fun r => r.playedAtUTS)),
    listMaxInt0 ((rows.filter datedP).map (fun r => r.playedAtUTS))⟩

/-- digest.recentScrobbles: dated rows, newest first, LIMIT, with the
RFC3339 rendering and COALESCE(album_name, ''). -/
def recentModel (limit : Nat) (rows : List Row) : List ScrobbleOut :=
  ((List.insertionSort (fun a b : Row => b.playedAtUTS ≤ a.playedAtUTS)
      (rows.filter datedP)).take limit).map
    (fun r => ⟨r.playedAtUTS, rfc3339 r.playedAtUTS, r.artistName, r.trackName,
      r.albumName.getD ""⟩)

/-- The artist GROUP BY of digest.topArtists, before ORDER BY. -/
def artistGroups (now : Int) (days : Int) (rows : List Row) : List GroupEntry :=
  groupStats (windowP now days) (fun r => (r.artistName, "")) rows

/-- The same groups after the stable ORDER BY plays DESC. -/
def sortedArtistGroups (now : Int) (days : Int) (rows : List Row) : List GroupEntry :=
  List.insertionSort byPlaysDesc (artistGroups now days rows)

/-- digest.topArtists. -/
def topArtistsModel (now : Int) (days : Int) (limit : Nat) (rows : List Row) :
    List RankedArtist :=
  withIndexFrom (fun i e => ⟨i, e.k1, e.plays⟩) 1
    ((sortedArtistGroups now days rows).take limit)

/-- The (artist, track) GROUP BY of digest.topTracks, before ORDER BY. -/
def trackGroups (now : Int) (days : Int) (rows : List Row) : List GroupEntry :=
  groupStats (windowP now days) trackKey rows

def sortedTrackGroups (now : Int) (days : Int) (rows : List Row) : List GroupEntry :=
  List.insertionSort byPlaysDesc (trackGroups now days rows)

/-- digest.topTracks. -/
def topTracksModel (now : Int) (days : Int) (limit : Nat) (rows : List Row) :
    List RankedTrack :=
  withIndexFrom (fun i e => ⟨i, e.k1, e.k2, e.plays, e.last⟩) 1
    ((sortedTrackGroups now days rows).take limit)

/-- digest.topAlbums. -/
def topAlbumsModel (now : Int) (days : Int) (limit : Nat) (rows : List Row) :
    List RankedAlbum :=
  withIndexFrom (fun i e => ⟨i, e.k1, e.k2, e.plays, e.last⟩) 1
    ((List.insertionSort byPlaysDesc
        (groupStats (fun r => windowP now days r && albumOK r)
          albumKey rows)).take limit)

/-- The shared HAVING/ORDER BY/LIMIT stage of the two resurface queries.
The SQL reads HAVING last_played < strftime(time-format, now-marker,
stale-window), but last_played aliases the aggregate MAX(played_at_uts),
an expression with no column affinity, while strftime returns TEXT: SQLite
compares the INTEGER against the TEXT by storage class, and an integer
orders before every text value, so the clause is always true and filters
nothing (reproduced against the exact query and schema; contrast the
windowed WHERE clauses above, where the played_at_uts column reference
carries INTEGER affinity and the text operand is converted).  The faithful
model therefore applies no staleness filter: stable-sort the groups by
plays descending and truncate.  The now parameter, like the bound SQL
parameter, is received and without effect. -/
def staleSorted (p : Row → Bool) (key : Row → String × String) (now : Int)
    (limit : Nat) (rows : List Row) : List GroupEntry :=
  (List.insertionSort byPlaysDesc (groupStats p key rows)).take limit

/-- digest.resurfaceTracks: groups of all dated plays, the inert HAVING
staleness clause (see staleSorted), ORDER BY plays DESC, LIMIT. -/
def resurfaceTracksModel (now : Int) (limit : Nat) (rows : List Row) :
    List RankedTrack :=
  withIndexFrom (fun i e => ⟨i, e.k1, e.k2, e.plays, e.last⟩) 1
    (staleSorted datedP trackKey now limit rows)

/-- digest.resurfaceAlbums. -/
def resurfaceAlbumsModel (now : Int) (limit : Nat) (rows : List Row) :
    List RankedAlbum :=
  withIndexFrom (fun i e => ⟨i, e.k1, e.k2, e.plays, e.last⟩) 1
    (staleSorted datedAlbumP albumKey now limit rows)

/-- The (year, artist) GROUP BY shared by yearlyTopArtists and
signatureArtists. -/
def yearArtistGroups (rows : List Row) : List (Int × String × Nat) :=
  let rs := rows.filter datedP
  (uniqKeys (rs.map (fun r => (yearOf r.playedAtUTS, r.artistName)))).map
    (fun k => (k.1, k.2,
      (rs.filter (fun r => (yearOf r.playedAtUTS, r.artistName) = k)).length))

/-- ROW_NUMBER() OVER (PARTITION BY year ORDER BY plays DESC), one year. -/
def rankedYear (rows : List Row) (y : Int) : List YearlyArtist :=
  withIndexFrom (fun i g => ⟨y, i, g.2.1, g.2.2⟩) 1
    (List.insertionSort (fun a b : Int × String × Nat => b.2.2 ≤ a.2.2)
      ((yearArtistGroups rows).filter (fun g => g.1 = y)))

/-- digest.yearlyTopArtists: per-year ranks ≤ perYear, year ascending then
rank ascending. -/
def yearlyTopArtistsModel (perYear : Nat) (rows : List Row) : List YearlyArtist :=
  (List.insertionSort (fun a b : Int => a ≤ b)
      (uniqKeys ((yearArtistGroups rows).map (fun g => g.1)))).flatMap
    (fun y => (rankedYear rows y).filter (fun e => decide (e.rank ≤ perYear)))

/-- digest.signatureArtists: artists in a per-year top-20 across at least
minYears distinct years, ranked by years-in-top then summed plays. -/
def signatureArtistsModel (minYears : Nat) (limit : Nat) (rows : List Row) :
    List SignatureArtist :=
  let top := (List.insertionSort (fun a b : Int => a ≤ b)
      (uniqKeys ((yearArtistGroups rows).map (fun g => g.1)))).flatMap
    (fun y => (rankedYear rows y).filter (fun e => decide (e.rank ≤ 20)))
  let aggs := (uniqKeys (top.map (fun e => e.artist))).map (fun a =>
    let es := top.filter (fun e => e.artist = a)
    (⟨0, a, es.length, listMinInt0 (es.map (fun e => e.year)),
      listMaxInt0 (es.map (fun e => e.year)),
      (es.map (fun e => e.plays)).sum⟩ : SignatureArtist))
  withIndexFrom (fun i s => { s with rank := i }) 1
    ((List.insertionSort
        (fun a b : SignatureArtist => b.yearsInTop < a.yearsInTop ∨
          (b.yearsInTop = a.yearsInTop ∧ b.playsInTopYears ≤ a.playsInTopYears))
        (aggs.filter (fun s => decide (minYears ≤ s.yearsInTop)))).take limit)

/-- digest.Build: option validation, then every section of the document,
computed from the fixed now and the store contents. -/
def buildDigest (now : Int) (opt : DigestOptions) (rows : List Row) :
    Except String DigestDoc :=
  if opt.recentLimit = 0 ∨ 1000 < opt.recentLimit then
    .error "invalid RecentLimit"
  else
    .ok ⟨metaModel now rows,
      recentModel opt.recentLimit rows,
      ⟨topArtistsModel now 30 opt.topArtistsLimit rows,
       topArtistsModel now 365 opt.topArtistsLimit rows,
       topTracksModel now 30 opt.topTracksLimit rows,
       topAlbumsModel now 30 opt.topAlbumsLimit rows⟩,
      ⟨resurfaceTracksModel now opt.topTracksLimit rows,
       resurfaceAlbumsModel now opt.topAlbumsLimit rows⟩,
      yearlyTopArtistsModel opt.yearlyTopArtistsPerYear rows,
      signatureArtistsModel opt.signatureMinYears opt.signatureLimit rows⟩

instance : IsTotal GroupEntry byPlaysDesc :=
  ⟨fun a b => (le_total a.plays b.plays).symm⟩

instance : IsTrans GroupEntry byPlaysDesc :=
  ⟨fun _ _ _ hab hbc => le_trans hbc hab⟩

theorem mem_uniqAux {κ : Type} [DecidableEq κ] {k : κ} :
    ∀ {l seen : List κ}, k ∈ uniqAux l seen → k ∈ l := by
  intro l
  induction l with
  | nil => intro seen h; simp [uniqAux] at h
  | cons k0 ks ih =>
    intro seen h
    unfold uniqAux at h
    by_cases hs : k0 ∈ seen
    · rw [if_pos hs] at h
      exact List.mem_cons_of_mem k0 (ih h)
    · rw [if_neg hs] at h
      rcases List.mem_cons.mp h with h1 | h1
      · simp [h1]
      · exact List.mem_cons_of_mem k0 (ih h1)

theorem mem_uniqKeys {κ : Type} [DecidableEq κ] {k : κ} {l : List κ}
    (h : k ∈ uniqKeys l) : k ∈ l :=
  mem_uniqAux h

theorem mem_withIndexFrom {α β : Type} {f : Nat → α → β} :
    ∀ {i : Nat} {l : List α} {b : β}, b ∈ withIndexFrom f i l →
      ∃ j x, x ∈ l ∧ b = f j x := by
  intro i l
  induction l generalizing i with
  | nil => intro b h; simp [withIndexFrom] at h
  | cons x xs ih =>
    intro b h
    unfold withIndexFrom at h
    rcases List.mem_cons.mp h with h1 | h1
    · exact ⟨i, x, by simp, h1⟩
    · obtain ⟨j, y, hy, hb⟩ := ih h1
      exact ⟨j, y, by simp [hy], hb⟩

theorem map_withIndexFrom {α β γ : Type} (f : Nat → α → β) (g : β → γ)
    (g' : α → γ) (h : ∀ j x, g (f j x) = g' x) :
    ∀ (i : Nat) (l : List α),
      (withIndexFrom f i l).map g = l.map g' := by
  intro i l
  induction l generalizing i with
  | nil => rfl
  | cons x xs ih => simp [withIndexFrom, h, ih]

/-- What membership in a GROUP BY output means. -/
theorem groupStats_mem {p : Row → Bool} {key : Row → String × String}
    {rows : List Row} {e : GroupEntry} (h : e ∈ groupStats p key rows) :
    (∃ r ∈ rows, p r = true ∧ key r = (e.k1, e.k2)) ∧
    e.plays = playsOf p key rows (e.k1, e.k2) ∧
    e.last = lastPlayedOf p key rows (e.k1, e.k2) := by
  unfold groupStats at h
  obtain ⟨k, hk, he⟩ := List.mem_map.mp h
  have hk' : k ∈ (rows.filter p).map key := mem_uniqKeys hk
  obtain ⟨r, hr, hkey⟩ := List.mem_map.mp hk'
  have hr' := List.mem_filter.mp hr
  have hke : (e.k1, e.k2) = k := by rw [← he]
  constructor
  · exact ⟨r, hr'.1, hr'.2, by rw [hkey, hke]⟩
  · rw [hke]
    constructor
    · rw [← he]
    · rw [← he]

/-- C7: the claimed resurface staleness exclusion does not hold in the
code -- the HAVING clause is inert (see staleSorted).  Concretely, with
now = 1200000000 and a store whose only scrobble was played at
1199996400, one hour before now and far inside the 180-day staleness
window (the cutoff is 1184480000), both resurface queries return that
recently-played track and album at rank 1, where the spec promises they
never appear. -/
theorem resurface_having_inert :
    resurfaceTracksModel 1200000000 50
        [⟨1199996400, "tr2", "a2", some "alb2", none, none, none, none, "h2"⟩] =
      [⟨1, "a2", "tr2", 1, 1199996400⟩] ∧
    resurfaceAlbumsModel 1200000000 50
        [⟨1199996400, "tr2", "a2", some "alb2", none, none, none, none, "h2"⟩] =
      [⟨1, "a2", "alb2", 1, 1199996400⟩] ∧
    (1200000000 - 180 * 86400 : Int) ≤ 1199996400 := by
  refine ⟨by decide, by decide, by decide⟩

/-- C8: digest determinism.  The digest build is a pure function of the
fixed "now", the options, and the store contents: two runs over equal
stores produce identical documents.  Moreover the promised stable
secondary order holds for the top queries: entries tied on play count keep
their GROUP BY scan order through the stable ORDER BY (shown for the
topArtists and topTracks pipelines), so repeated runs on unchanged data
reproduce identical ordering. -/
theorem digest_deterministic :
    (∀ (now : Int) (opt : DigestOptions) (rows₁ rows₂ : List Row),
      rows₁ = rows₂ → buildDigest now opt rows₁ = buildDigest now opt rows₂) ∧
    (∀ (now days : Int) (rows : List Row) (x y : GroupEntry),
      x.plays = y.plays → [x, y].Sublist (artistGroups now days rows) →
      [x, y].Sublist (sortedArtistGroups now days rows)) ∧
    (∀ (now days : Int) (rows : List Row) (x y : GroupEntry),
      x.plays = y.plays → [x, y].Sublist (trackGroups now days rows) →
      [x, y].Sublist (sortedTrackGroups now days rows)) := by
  refine ⟨fun now opt r1 r2 h => by rw [h], ?_, ?_⟩
  · intro now days rows x y hp hsub
    exact List.pair_sublist_insertionSort (le_of_eq hp.symm) hsub
  · intro now days rows x y hp hsub
    exact List.pair_sublist_insertionSort (le_of_eq hp.symm) hsub

/-- Witness for the determinism theorem: equal stores give equal digests,
and two artists (resp. tracks) tied at one play keep their scan order in
the sorted output. -/
theorem digest_deterministic_witness :
    buildDigest 1000000000 defaultDigestOptions
        [⟨999000000, "t", "a", none, none, none, none, none, "hA"⟩] =
      buildDigest 1000000000 defaultDigestOptions
        [⟨999000000, "t", "a", none, none, none, none, none, "hA"⟩] ∧
    [(⟨"a", "", 1, 999000000⟩ : GroupEntry), ⟨"b", "", 1, 999000001⟩].Sublist
      (sortedArtistGroups 1000000000 30
        [⟨999000000, "t", "a", none, none, none, none, none, "hA"⟩,
         ⟨999000001, "t", "b", none, none, none, none, none, "hB"⟩]) ∧
    [(⟨"a", "t", 1, 999000000⟩ : GroupEntry), ⟨"b", "t", 1, 999000001⟩].Sublist
      (sortedTrackGroups 1000000000 30
        [⟨999000000, "t", "a", none, none, none, none, none, "hA"⟩,
         ⟨999000001, "t", "b", none, none, none, none, none, "hB"⟩]) :=
  ⟨digest_deterministic.1 1000000000 defaultDigestOptions
      [⟨999000000, "t", "a", none, none, none, none, none, "hA"⟩]
      [⟨999000000, "t", "a", none, none, none, none, none, "hA"⟩] rfl,
   digest_deterministic.2.1 1000000000 30
      [⟨999000000, "t", "a", none, none, none, none, none, "hA"⟩,
       ⟨999000001, "t", "b", none, none, none, none, none, "hB"⟩]
      ⟨"a", "", 1, 999000000⟩ ⟨"b", "", 1, 999000001⟩ rfl (by decide),
   digest_deterministic.2.2 1000000000 30
      [⟨999000000, "t", "a", none, none, none, none, none, "hA"⟩,
       ⟨999000001, "t", "b", none, none, none, none, none, "hB"⟩]
      ⟨"a", "t", 1, 999000000⟩ ⟨"b", "t", 1, 999000001⟩ rfl (by decide)⟩

/-! ### Recommendation pipeline (internal/recommend.Build) -/

/-- recommend.TrackCand: a candidate track with its aggregate artist score
and local listening stats.  Scores are rationals standing for the float64
aggregates (the pipeline only adds and compares them). -/
structure TrackCand where
  rank : Nat
  artist : String
  track : String
  score : ℚ
  localPlays : Nat
  localLastPlayedUTS : Int
deriving DecidableEq, Repr

/-- The sort.SliceStable comparator of recommend.Build: when preferUnplayed
is set and exactly one side is unplayed, the unplayed side sorts first;
otherwise equal scores tie-break by local last-played ascending, and
different scores order descending. -/
def trackLess (pu : Bool) (a b : TrackCand) : Bool :=
  if pu = true ∧ ¬((a.localPlays = 0) ↔ (b.localPlays = 0)) then decide (a.localPlays = 0)
  else if a.score = b.score then decide (a.localLastPlayedUTS < b.localLastPlayedUTS)
  else decide (b.score < a.score)

instance (pu : Bool) : DecidableRel (fun a b : TrackCand => trackLess pu b a = false) :=
  fun _ _ => instDecidableEqBool _ _

/-- sort.SliceStable(tracks, less): stable sort, modelled as insertion sort
over the relation "not strictly after". -/
def sortTracks (pu : Bool) (l : List TrackCand) : List TrackCand :=
  List.insertionSort (fun a b => trackLess pu b a = false) l

/-- The tail of recommend.Build: sort, drop played tracks unless
includePlayedTracks, then assign ranks 1..n in order. -/
def finalTracks (pu incl : Bool) (l : List TrackCand) : List TrackCand :=
  withIndexFrom (fun i t => { t with rank := i }) 1
    (if incl then sortTracks pu l else (sortTracks pu l).filter (fun t => t.localPlays == 0))

/-- 0 for unplayed candidates, 1 for played ones (the primary sort key when
preferUnplayed is set). -/
def unplayedKey (t : TrackCand) : Nat := if t.localPlays = 0 then 0 else 1

/-- The comparator's sort key: the comparator is the strict order of the
lexicographic key (unplayed-first when enabled, score descending,
last-played ascending). -/
def trackKeyOf (pu : Bool) (t : TrackCand) : Lex (Nat × Lex (ℚ × Int)) :=
  toLex (if pu = true then unplayedKey t else 0, toLex (-t.score, t.localLastPlayedUTS))

theorem trackLess_iff_lt (pu : Bool) (a b : TrackCand) :
    trackLess pu a b = true ↔ trackKeyOf pu a < trackKeyOf pu b := by
  unfold trackLess trackKeyOf unplayedKey
  by_cases hsc : a.score = b.score
  all_goals cases pu
  all_goals by_cases ha : a.localPlays = 0
  all_goals by_cases hb : b.localPlays = 0
  all_goals simp [ha, hb, hsc, Prod.Lex.lt_iff]

theorem sortLe_iff (pu : Bool) (a b : TrackCand) :
    (trackLess pu b a = false) ↔ trackKeyOf pu a ≤ trackKeyOf pu b := by
  rw [← not_lt, ← trackLess_iff_lt pu b a]
  constructor
  · intro h hc; rw [h] at hc; exact Bool.false_ne_true hc
  · intro h; exact Bool.eq_false_iff.mpr h

instance (pu : Bool) : IsTotal TrackCand (fun a b => trackLess pu b a = false) :=
  ⟨fun a b => by
    rcases le_total (trackKeyOf pu a) (trackKeyOf pu b) with h | h
    · exact Or.inl ((sortLe_iff pu a b).mpr h)
    · exact Or.inr ((sortLe_iff pu b a).mpr h)⟩

instance (pu : Bool) : IsTrans TrackCand (fun a b => trackLess pu b a = false) :=
  ⟨fun a b c hab hbc => (sortLe_iff pu a c).mpr
    (le_trans ((sortLe_iff pu a b).mp hab) ((sortLe_iff pu b c).mp hbc))⟩

/-- Two distinct values both present in a list occur in one order or the
other. -/
theorem pair_sublist_total {α : Type} {a b : α} {l : List α} (hab : a ≠ b)
    (ha : a ∈ l) (hb : b ∈ l) : [a, b].Sublist l ∨ [b, a].Sublist l := by
  induction l with
  | nil => cases ha
  | cons c t ih =>
    rcases List.mem_cons.mp ha with rfl | ha'
    · have hb' : b ∈ t := by
        rcases List.mem_cons.mp hb with h | h
        · exact absurd h.symm hab
        · exact h
      exact Or.inl ((List.singleton_sublist.mpr hb').cons₂ a)
    · rcases List.mem_cons.mp hb with rfl | hb'
      · exact Or.inr ((List.singleton_sublist.mpr ha').cons₂ b)
      · rcases ih ha' hb' with h | h
        · exact Or.inl (h.cons c)
        · exact Or.inr (h.cons c)

theorem rank_mem_of_mem : ∀ {l : List TrackCand} {b : TrackCand} (n : Nat), b ∈ l →
    ∃ j, n ≤ j ∧ { b with rank := j } ∈ withIndexFrom (fun i t => { t with rank := i }) n l := by
  intro l
  induction l with
  | nil => intro b n h; cases h
  | cons c t ih =>
    intro b n h
    rcases List.mem_cons.mp h with rfl | h'
    · exact ⟨n, le_refl n, by simp [withIndexFrom]⟩
    · obtain ⟨j, hj, hmem⟩ := ih (n + 1) h'
      exact ⟨j, by omega, by simp [withIndexFrom]; exact Or.inr hmem⟩

theorem rank_pair_of_sublist : ∀ {l : List TrackCand} {a b : TrackCand} (n : Nat),
    [a, b].Sublist l →
    ∃ i j, i < j ∧ { a with rank := i } ∈ withIndexFrom (fun i t => { t with rank := i }) n l ∧
      { b with rank := j } ∈ withIndexFrom (fun i t => { t with rank := i }) n l := by
  intro l
  induction l with
  | nil => intro a b n h; exact absurd h (by simp)
  | cons c t ih =>
    intro a b n h
    cases h with
    | cons _ h' =>
      obtain ⟨i, j, hij, hi, hj⟩ := ih (n + 1) h'
      exact ⟨i, j, hij, by simp [withIndexFrom]; exact Or.inr hi,
        by simp [withIndexFrom]; exact Or.inr hj⟩
    | cons₂ _ h' =>
      obtain ⟨j, hj, hmem⟩ := rank_mem_of_mem (n + 1) (List.singleton_sublist.mp h')
      exact ⟨n, j, by omega, by simp [withIndexFrom], by simp [withIndexFrom]; exact Or.inr hmem⟩

/-- A pair ordered in the (filtered) sorted list receives ranks in that
order. -/
theorem pair_mem_finalTracks (pu incl : Bool) (l : List TrackCand) (a b : TrackCand)
    (h : [a, b].Sublist
      (if incl then sortTracks pu l else (sortTracks pu l).filter (fun t => t.localPlays == 0))) :
    ∃ i j, i < j ∧ { a with rank := i } ∈ finalTracks pu incl l ∧
      { b with rank := j } ∈ finalTracks pu incl l := by
  unfold finalTracks
  exact rank_pair_of_sublist 1 h

/-- C9: recommendation ranking is monotone in aggregate score.  Fix a
candidate list in which x appears (at any position) and a distinct other
candidate y.  If x precedes y in the sorted order of run one, then after
raising x's score to s' (all other inputs unchanged) x still precedes y in
the sorted order of run two; consequently x receives a strictly smaller
rank than y in the ranked output, both with includePlayedTracks (no
filtering) and, when both candidates are unplayed, under the
unplayed-only filter. -/
theorem recommend_rank_monotone (pu : Bool) (la lb : List TrackCand)
    (x y : TrackCand) (s' : ℚ) (hs : x.score < s') (hy : y ∈ la ++ lb)
    (h1 : [x, y].Sublist (sortTracks pu (la ++ x :: lb))) :
    [{ x with score := s' }, y].Sublist (sortTracks pu (la ++ { x with score := s' } :: lb)) ∧
    (∃ i j, i < j ∧
      { x with score := s', rank := i } ∈ finalTracks pu true (la ++ { x with score := s' } :: lb) ∧
      { y with rank := j } ∈ finalTracks pu true (la ++ { x with score := s' } :: lb)) ∧
    (x.localPlays = 0 → y.localPlays = 0 → ∃ i j, i < j ∧
      { x with score := s', rank := i } ∈ finalTracks pu false (la ++ { x with score := s' } :: lb) ∧
      { y with rank := j } ∈ finalTracks pu false (la ++ { x with score := s' } :: lb)) := by
  have hkx : trackKeyOf pu { x with score := s' } < trackKeyOf pu x := by
    unfold trackKeyOf
    rw [Prod.Lex.lt_iff]
    refine Or.inr ⟨rfl, ?_⟩
    rw [Prod.Lex.lt_iff]
    exact Or.inl (by simpa using hs)
  have hsorted1 :=
    List.sorted_insertionSort (fun a b => trackLess pu b a = false) (la ++ x :: lb)
  have hrxy : trackLess pu y x = false := by
    have hp : List.Pairwise (fun a b => trackLess pu b a = false) [x, y] :=
      List.Pairwise.sublist h1 hsorted1
    exact (List.pairwise_cons.mp hp).1 y (by simp)
  have hkxy : trackKeyOf pu x ≤ trackKeyOf pu y := (sortLe_iff pu x y).mp hrxy
  have hlt : trackKeyOf pu { x with score := s' } < trackKeyOf pu y :=
    lt_of_lt_of_le hkx hkxy
  have hne : ({ x with score := s' } : TrackCand) ≠ y := by
    intro he; rw [he] at hlt; exact lt_irrefl _ hlt
  have hx'mem : ({ x with score := s' } : TrackCand) ∈
      sortTracks pu (la ++ { x with score := s' } :: lb) := by
    unfold sortTracks
    rw [List.mem_insertionSort]
    simp
  have hymem : y ∈ sortTracks pu (la ++ { x with score := s' } :: lb) := by
    unfold sortTracks
    rw [List.mem_insertionSort]
    rcases List.mem_append.mp hy with h | h
    · exact List.mem_append.mpr (Or.inl h)
    · exact List.mem_append.mpr (Or.inr (List.mem_cons.mpr (Or.inr h)))
  have hmain : [{ x with score := s' }, y].Sublist
      (sortTracks pu (la ++ { x with score := s' } :: lb)) := by
    rcases pair_sublist_total hne hx'mem hymem with h | h
    · exact h
    · exfalso
      have hsorted2 := List.sorted_insertionSort (fun a b => trackLess pu b a = false)
        (la ++ { x with score := s' } :: lb)
      have hp : List.Pairwise (fun a b => trackLess pu b a = false)
          [y, { x with score := s' }] := List.Pairwise.sublist h hsorted2
      have hle : trackKeyOf pu y ≤ trackKeyOf pu { x with score := s' } :=
        (sortLe_iff pu y _).mp ((List.pairwise_cons.mp hp).1 _ (by simp))
      exact absurd hlt (not_lt.mpr hle)
  refine ⟨hmain, ?_, ?_⟩
  · exact pair_mem_finalTracks pu true _ _ _ (by simpa using hmain)
  · intro hxp hyp
    have hfilter := List.Sublist.filter (fun t => t.localPlays == 0) hmain
    have hpair : List.filter (fun t => t.localPlays == 0) [{ x with score := s' }, y] =
        [{ x with score := s' }, y] := by
      simp [List.filter, hxp, hyp]
    rw [hpair] at hfilter
    exact pair_mem_finalTracks pu false _ _ _ (by simpa using hfilter)

/-- Witness for the monotonicity theorem: two unplayed candidates with
scores 5 and 3; raising the first to 7 keeps it ahead and ranked above,
under both filter settings. -/
theorem recommend_rank_monotone_witness :
    ((⟨0, "ax", "tx", 5, 0, 10⟩ : TrackCand).score < (7 : ℚ)) ∧
    ((⟨0, "ay", "ty", 3, 0, 20⟩ : TrackCand) ∈
      ([] : List TrackCand) ++ [⟨0, "ay", "ty", 3, 0, 20⟩]) ∧
    [(⟨0, "ax", "tx", 5, 0, 10⟩ : TrackCand), ⟨0, "ay", "ty", 3, 0, 20⟩].Sublist
      (sortTracks true ([] ++ (⟨0, "ax", "tx", 5, 0, 10⟩ : TrackCand) ::
        [⟨0, "ay", "ty", 3, 0, 20⟩])) ∧
    ([{ (⟨0, "ax", "tx", 5, 0, 10⟩ : TrackCand) with score := 7 },
        (⟨0, "ay", "ty", 3, 0, 20⟩ : TrackCand)].Sublist
      (sortTracks true ([] ++ ({ (⟨0, "ax", "tx", 5, 0, 10⟩ : TrackCand) with score := 7 }) ::
        [⟨0, "ay", "ty", 3, 0, 20⟩])) ∧
    (∃ i j, i < j ∧
      { (⟨0, "ax", "tx", 5, 0, 10⟩ : TrackCand) with score := 7, rank := i } ∈
        finalTracks true true
          ([] ++ ({ (⟨0, "ax", "tx", 5, 0, 10⟩ : TrackCand) with score := 7 }) ::
            [⟨0, "ay", "ty", 3, 0, 20⟩]) ∧
      { (⟨0, "ay", "ty", 3, 0, 20⟩ : TrackCand) with rank := j } ∈
        finalTracks true true
          ([] ++ ({ (⟨0, "ax", "tx", 5, 0, 10⟩ : TrackCand) with score := 7 }) ::
            [⟨0, "ay", "ty", 3, 0, 20⟩])) ∧
    ((⟨0, "ax", "tx", 5, 0, 10⟩ : TrackCand).localPlays = 0 →
      (⟨0, "ay", "ty", 3, 0, 20⟩ : TrackCand).localPlays = 0 → ∃ i j, i < j ∧
      { (⟨0, "ax", "tx", 5, 0, 10⟩ : TrackCand) with score := 7, rank := i } ∈
        finalTracks true false
          ([] ++ ({ (⟨0, "ax", "tx", 5, 0, 10⟩ : TrackCand) with score := 7 }) ::
            [⟨0, "ay", "ty", 3, 0, 20⟩]) ∧
      { (⟨0, "ay", "ty", 3, 0, 20⟩ : TrackCand) with rank := j } ∈
        finalTracks true false
          ([] ++ ({ (⟨0, "ax", "tx", 5, 0, 10⟩ : TrackCand) with score := 7 }) ::
            [⟨0, "ay", "ty", 3, 0, 20⟩]))) :=
  ⟨by decide, by decide, by decide,
    recommend_rank_monotone true [] [⟨0, "ay", "ty", 3, 0, 20⟩]
      ⟨0, "ax", "tx", 5, 0, 10⟩ ⟨0, "ay", "ty", 3, 0, 20⟩ 7
      (by decide) (by decide) (by decide)⟩

/-- ASCII lowercasing of one character (strings.ToLower restricted to
ASCII; candidate names in the statements are ASCII). -/
def charLower (c : Char) : Char :=
  if 'A' ≤ c ∧ c ≤ 'Z' then Char.ofNat (c.toNat + 32) else c

/-- strings.ToLower, modelled characterwise. -/
def strLower (s : String) : String := ⟨s.data.map charLower⟩

/-- strings.TrimSpace: drop whitespace from both ends. -/
def strTrim (s : String) : String :=
  ⟨((s.data.dropWhile Char.isWhitespace).reverse.dropWhile Char.isWhitespace).reverse⟩

/-- A similar artist as reported by the remote API (lastfm.SimilarArtist);
the match weight stays a string, as on the wire. -/
structure SimilarArtist where
  name : String
  matchStr : String
deriving DecidableEq, Repr

/-- A top track as reported by the remote API (lastfm.TopTrack). -/
structure TopTrack where
  name : String
deriving DecidableEq, Repr

/-- recommend.SeedArtist. -/
structure SeedArtist where
  artist : String
  plays : Nat
deriving DecidableEq, Repr

/-- recommend.ArtistCand. -/
structure ArtistCand where
  rank : Nat
  artist : String
  score : ℚ
  fromSeedArtists : List String
deriving DecidableEq, Repr

/-- The recommend.Options fields the pipeline under verification reads
(the two window strings and the seed query limit act before the modelled
stage; seeds are an input). -/
structure RecOptions where
  similarPerSeedArtist : Nat
  similarArtistsLimit : Nat
  topTracksPerArtist : Nat
  candidateTracksLimit : Nat
  excludeSeedArtists : Bool
  includePlayedTracks : Bool
  preferUnplayed : Bool
deriving Repr

/-- recommend.DefaultOptions, restricted to the modelled fields. -/
def recDefaultOptions : RecOptions := ⟨15, 25, 6, 120, true, true, true⟩

/-- The per-candidate aggregate of the similar-artist merge (the agg struct
local to recommend.Build). -/
structure Agg where
  score : ℚ
  fromSeeds : List String
deriving DecidableEq, Repr

/-- Set insertion for the from-seed-artists map-as-set. -/
def setInsert (l : List String) (s : String) : List String :=
  if l.contains s then l else l ++ [s]

/-- Association-list lookup (the artistsAgg map in insertion order). -/
def aggFind : List (String × Agg) → String → Option Agg
  | [], _ => none
  | (k, v) :: t, key => if k = key then some v else aggFind t key

/-- Association-list update of an existing key. -/
def aggSet : List (String × Agg) → String → Agg → List (String × Agg)
  | [], key, v => [(key, v)]
  | (k, w) :: t, key, v => if k = key then (key, v) :: t else (k, w) :: aggSet t key v

/-- One reported similar artist folded into the aggregate: trim the name,
skip empty names and (optionally) seed artists, parse the match weight,
and merge under the lowercased name as key. -/
def addSim (excl : Bool) (seedSet : List String) (seedName : String)
    (parseMatch : String → ℚ) (m : List (String × Agg)) (a : SimilarArtist) :
    List (String × Agg) :=
  let name := strTrim a.name
  if name = "" then m
  else if excl && seedSet.contains (strLower name) then m
  else
    let mv := parseMatch a.matchStr
    let k := strLower name
    match aggFind m k with
    | none => m ++ [(k, ⟨mv, [seedName]⟩)]
    | some cur => aggSet m k ⟨cur.score + mv, setInsert cur.fromSeeds seedName⟩

/-- The full similar-artist aggregation over all seeds (the double loop of
recommend.Build; strconv.ParseFloat is the oracle parseMatch, returning 0
where Go ignores the parse error). -/
def aggAll (excl : Bool) (seedSet : List String)
    (similar : String → Nat → List SimilarArtist) (perSeed : Nat)
    (parseMatch : String → ℚ) (seeds : List SeedArtist) : List (String × Agg) :=
  seeds.foldl (fun m seed => (similar seed.artist perSeed).foldl
    (addSim excl seedSet seed.artist parseMatch) m) []

/-- Bytewise string comparison (Go string order on ASCII; sort.Strings). -/
def charsLe : List Char → List Char → Bool
  | [], _ => true
  | _ :: _, [] => false
  | a :: as, b :: bs => if a < b then true else if b < a then false else charsLe as bs

instance : DecidableRel (fun a b : String => charsLe a.data b.data = true) :=
  fun _ _ => instDecidableEqBool _ _

/-- sort.Strings. -/
def sortStrings (l : List String) : List String :=
  List.insertionSort (fun a b => charsLe a.data b.data = true) l

/-- The stable descending-score order on artist candidates
(sort.SliceStable with score-greater as less). -/
def byScoreDesc (a b : ArtistCand) : Prop := b.score ≤ a.score

instance : DecidableRel byScoreDesc :=
  fun a b => inferInstanceAs (Decidable (b.score ≤ a.score))

/-- From the aggregate map to the ranked candidate list: materialise in
insertion order, stable-sort by score descending, truncate, rank 1..n. -/
def artistCandsOf (agg : List (String × Agg)) (limit : Nat) : List ArtistCand :=
  let cands := agg.map (fun p => (⟨0, p.1, p.2.score, sortStrings p.2.fromSeeds⟩ : ArtistCand))
  withIndexFrom (fun i a => { a with rank := i }) 1
    ((List.insertionSort byScoreDesc cands).take limit)

/-- An outgoing effect of the track-expansion phase: a remote
artist.getTopTracks call or a local stats query (the prepared SELECT over
scrobbles). -/
inductive RecCall where
  | topTracksCall (artist : String) (limit : Nat)
  | localLookup (artist : String) (track : String)
deriving DecidableEq, Repr

/-- The artist string carried by a call. -/
def recCallArtist : RecCall → String
  | .topTracksCall a _ => a
  | .localLookup a _ => a

/-- The rows the local stats query matches: dated sanely and equal,
case-sensitively, on artist and track name. -/
def localTrackRows (rows : List Row) (artist track : String) : List Row :=
  rows.filter (fun r =>
    decide (minSaneUTS ≤ r.playedAtUTS) && (r.artistName == artist) && (r.trackName == track))

/-- COUNT(*) of the local stats query. -/
def localPlays (rows : List Row) (artist track : String) : Nat :=
  (localTrackRows rows artist track).length

/-- COALESCE(MAX(played_at_uts),0) of the local stats query. -/
def localLast (rows : List Row) (artist track : String) : Int :=
  listMaxInt0 ((localTrackRows rows artist track).map (fun r => r.playedAtUTS))

/-- The inner track loop of the expansion for one candidate artist: trim
the track name, skip empties and already-seen artist|track keys, query
local stats, append the candidate, and stop at the global cap. -/
def innerGo (rows : List Row) (capLimit : Nat) (artistName : String) (score : ℚ) :
    List TopTrack → List String → List TrackCand → List RecCall →
    List TrackCand × List String × List RecCall
  | [], seen, tracks, calls => (tracks, seen, calls)
  | t :: rest, seen, tracks, calls =>
    let track := strTrim t.name
    if track = "" then innerGo rows capLimit artistName score rest seen tracks calls
    else
      let key := strLower (artistName ++ "|" ++ track)
      if seen.contains key then innerGo rows capLimit artistName score rest seen tracks calls
      else
        let tracks' := tracks ++ [⟨0, artistName, track, score,
          localPlays rows artistName track, localLast rows artistName track⟩]
        let calls' := calls ++ [RecCall.localLookup artistName track]
        if capLimit ≤ tracks'.length then (tracks', seen ++ [key], calls')
        else innerGo rows capLimit artistName score rest (seen ++ [key]) tracks' calls'

/-- The outer expansion loop over the ranked artist candidates: one
top-tracks call per processed candidate, then its inner loop; stop once
the track list reaches the cap. -/
def expandGo (topTracks : String → Nat → List TopTrack) (rows : List Row)
    (perArtist capLimit : Nat) :
    List ArtistCand → List String → List TrackCand → List RecCall →
    List TrackCand × List RecCall
  | [], _, tracks, calls => (tracks, calls)
  | a :: rest, seen, tracks, calls =>
    let r := innerGo rows capLimit a.artist a.score (topTracks a.artist perArtist) seen tracks
      (calls ++ [RecCall.topTracksCall a.artist perArtist])
    if capLimit ≤ r.1.length then (r.1, r.2.2)
    else expandGo topTracks rows perArtist capLimit rest r.2.1 r.1 r.2.2

/-- The output of recommend.Build (meta omitted), with the trace of
outgoing calls of the expansion phase. -/
structure RecOutput where
  seeds : List SeedArtist
  artists : List ArtistCand
  tracks : List TrackCand
  calls : List RecCall
deriving Repr

/-- recommend.Build over explicit inputs: seeds (the seed-artist SQL
query's result), the two remote APIs and the float parser as oracles, and
the scrobbles table. -/
def buildRec (seeds : List SeedArtist) (similar : String → Nat → List SimilarArtist)
    (parseMatch : String → ℚ) (topTracks : String → Nat → List TopTrack)
    (rows : List Row) (opt : RecOptions) : RecOutput :=
  let seedSet := seeds.map (fun s => strLower s.artist)
  let agg := aggAll opt.excludeSeedArtists seedSet similar opt.similarPerSeedArtist
    parseMatch seeds
  let cands := artistCandsOf agg opt.similarArtistsLimit
  let r := expandGo topTracks rows opt.topTracksPerArtist opt.candidateTracksLimit cands [] [] []
  ⟨seeds, cands, finalTracks opt.preferUnplayed opt.includePlayedTracks r.1, r.2⟩

/-- A run with one seed whose single reported similar artist is "B "
(trailing space): the output candidate name is "b", the lowercase of the
TRIMMED name, while the lowercase of the reported name is "b " -- so the
output name is not the lowercased reported name. -/
theorem recommend_lowercase_counterexample :
    ((buildRec [⟨"seed", 5⟩] (fun _ _ => [⟨"B ", "1"⟩]) (fun _ => 1) (fun _ _ => [])
        [] recDefaultOptions).artists.map (fun a => a.artist) = ["b"]) ∧
    (((fun (_ : String) (_ : Nat) => [(⟨"B ", "1"⟩ : SimilarArtist)]) "seed"
        recDefaultOptions.similarPerSeedArtist).map (fun a => strLower a.name) = ["b "]) ∧
    ("b" : String) ≠ "b " := by
  refine ⟨by decide, by decide, by decide⟩

/-- A key of the updated association list is an old key or the set key. -/
theorem aggSet_keys {m : List (String × Agg)} {key k : String} {v : Agg}
    (h : k ∈ (aggSet m key v).map Prod.fst) : k ∈ m.map Prod.fst ∨ k = key := by
  induction m with
  | nil => simp [aggSet] at h; exact Or.inr h
  | cons p t ih =>
    unfold aggSet at h
    by_cases hk : p.1 = key
    · rw [if_pos hk] at h
      simp only [List.map_cons, List.mem_cons] at h ⊢
      rcases h with h | h
      · exact Or.inr h
      · exact Or.inl (Or.inr h)
    · rw [if_neg hk] at h
      simp only [List.map_cons, List.mem_cons] at h ⊢
      rcases h with h | h
      · exact Or.inl (Or.inl h)
      · rcases ih h with h' | h'
        · exact Or.inl (Or.inr h')
        · exact Or.inr h'

/-- A key after one addSim step is an old key or the lowercased trimmed
reported name. -/
theorem addSim_keys {excl : Bool} {seedSet : List String} {seedName : String}
    {parseMatch : String → ℚ} {m : List (String × Agg)} {a : SimilarArtist} {k : String}
    (h : k ∈ (addSim excl seedSet seedName parseMatch m a).map Prod.fst) :
    k ∈ m.map Prod.fst ∨ k = strLower (strTrim a.name) := by
  unfold addSim at h
  by_cases h1 : strTrim a.name = ""
  · rw [if_pos h1] at h; exact Or.inl h
  · rw [if_neg h1] at h
    by_cases h2 : (excl && (seedSet.contains (strLower (strTrim a.name)))) = true
    · rw [if_pos h2] at h; exact Or.inl h
    · rw [if_neg h2] at h
      dsimp only at h
      cases hf : aggFind m (strLower (strTrim a.name)) with
      | none =>
        rw [hf] at h
        rw [List.map_append] at h
        rcases List.mem_append.mp h with h | h
        · exact Or.inl h
        · simp at h
          exact Or.inr h
      | some cur =>
        rw [hf] at h
        exact aggSet_keys h

/-- Every key of the full aggregate is the lowercased trimmed name of some
artist reported for some seed. -/
theorem aggAll_keys {excl : Bool} {seedSet : List String}
    {similar : String → Nat → List SimilarArtist} {perSeed : Nat}
    {parseMatch : String → ℚ} {seeds : List SeedArtist} {k : String}
    (h : k ∈ (aggAll excl seedSet similar perSeed parseMatch seeds).map Prod.fst) :
    ∃ seed ∈ seeds, ∃ sa ∈ similar seed.artist perSeed, k = strLower (strTrim sa.name) := by
  have main : ∀ (ss : List SeedArtist) (m : List (String × Agg)),
      k ∈ (ss.foldl (fun m seed => (similar seed.artist perSeed).foldl
        (addSim excl seedSet seed.artist parseMatch) m) m).map Prod.fst →
      k ∈ m.map Prod.fst ∨
        ∃ seed ∈ ss, ∃ sa ∈ similar seed.artist perSeed, k = strLower (strTrim sa.name) := by
    intro ss
    induction ss with
    | nil => intro m hm; exact Or.inl hm
    | cons seed rest ih =>
      intro m hm
      rcases ih _ hm with h' | h'
      · have inner : ∀ (l : List SimilarArtist) (m0 : List (String × Agg)),
            k ∈ (l.foldl (addSim excl seedSet seed.artist parseMatch) m0).map Prod.fst →
            k ∈ m0.map Prod.fst ∨ ∃ sa ∈ l, k = strLower (strTrim sa.name) := by
          intro l
          induction l with
          | nil => intro m0 h0; exact Or.inl h0
          | cons sa rest' ih' =>
            intro m0 h0
            rcases ih' _ h0 with h'' | h''
            · rcases addSim_keys h'' with h3 | h3
              · exact Or.inl h3
              · exact Or.inr ⟨sa, by simp, h3⟩
            · rcases h'' with ⟨sa', hsa', hk⟩
              exact Or.inr ⟨sa', by simp [hsa'], hk⟩
        rcases inner _ _ h' with h'' | h''
        · exact Or.inl h''
        · rcases h'' with ⟨sa, hsa, hk⟩
          exact Or.inr ⟨seed, by simp, sa, hsa, hk⟩
      · rcases h' with ⟨seed', hseed', rest'⟩
        exact Or.inr ⟨seed', by simp [hseed'], rest'⟩
  rcases main seeds [] h with h' | h'
  · simp at h'
  · exact h'

/-- Every ranked artist candidate's name is a key of the aggregate. -/
theorem artistCandsOf_names {agg : List (String × Agg)} {limit : Nat} {a : ArtistCand}
    (h : a ∈ artistCandsOf agg limit) : a.artist ∈ agg.map Prod.fst := by
  unfold artistCandsOf at h
  obtain ⟨j, x, hx, rfl⟩ := mem_withIndexFrom h
  have hx' : x ∈ List.insertionSort byScoreDesc
      (agg.map (fun p => (⟨0, p.1, p.2.score, sortStrings p.2.fromSeeds⟩ : ArtistCand))) :=
    List.mem_of_mem_take hx
  rw [List.mem_insertionSort] at hx'
  rcases List.mem_map.mp hx' with ⟨p, hp, rfl⟩
  exact List.mem_map.mpr ⟨p, hp, rfl⟩

/-- The per-track invariant of the expansion: the candidate's artist is
one of the ranked candidate names, and its local stats are the
case-sensitive count / latest-play of its own artist and track strings. -/
def recTrackOK (names : List String) (rows : List Row) (t : TrackCand) : Prop :=
  t.artist ∈ names ∧ t.localPlays = localPlays rows t.artist t.track ∧
  t.localLastPlayedUTS = localLast rows t.artist t.track

/-- The per-call invariant of the expansion: the artist string passed out
is one of the ranked candidate names, and top-tracks calls carry the
configured limit. -/
def recCallOK (names : List String) (perArtist : Nat) (c : RecCall) : Prop :=
  recCallArtist c ∈ names ∧
  ∀ art lim, c = RecCall.topTracksCall art lim → lim = perArtist

theorem innerGo_inv {rows : List Row} {capLimit : Nat} {artistName : String} {score : ℚ}
    {names : List String} {perArtist : Nat} (hart : artistName ∈ names) :
    ∀ (tops : List TopTrack) (seen : List String) (tracks : List TrackCand)
      (calls : List RecCall),
      (∀ t ∈ tracks, recTrackOK names rows t) →
      (∀ c ∈ calls, recCallOK names perArtist c) →
      (∀ t ∈ (innerGo rows capLimit artistName score tops seen tracks calls).1,
        recTrackOK names rows t) ∧
      (∀ c ∈ (innerGo rows capLimit artistName score tops seen tracks calls).2.2,
        recCallOK names perArtist c) := by
  intro tops
  induction tops with
  | nil => intro seen tracks calls ht hc; exact ⟨ht, hc⟩
  | cons t rest ih =>
    intro seen tracks calls ht hc
    unfold innerGo
    by_cases h1 : strTrim t.name = ""
    · rw [if_pos h1]
      exact ih _ _ _ ht hc
    · rw [if_neg h1]
      dsimp only
      by_cases h2 : (seen.contains (strLower (artistName ++ "|" ++ strTrim t.name))) = true
      · rw [if_pos h2]
        exact ih _ _ _ ht hc
      · rw [if_neg h2]
        have ht' : ∀ t' ∈ tracks ++ [(⟨0, artistName, strTrim t.name, score,
            localPlays rows artistName (strTrim t.name),
            localLast rows artistName (strTrim t.name)⟩ : TrackCand)],
            recTrackOK names rows t' := by
          intro t' ht'
          rcases List.mem_append.mp ht' with h | h
          · exact ht t' h
          · simp at h
            subst h
            exact ⟨hart, rfl, rfl⟩
        have hc' : ∀ c ∈ calls ++ [RecCall.localLookup artistName (strTrim t.name)],
            recCallOK names perArtist c := by
          intro c hcm
          rcases List.mem_append.mp hcm with h | h
          · exact hc c h
          · simp at h
            subst h
            exact ⟨hart, fun art lim he => by cases he⟩
        by_cases h3 : capLimit ≤ tracks.length + 1
        · rw [if_pos (by simpa using h3)]
          exact ⟨ht', hc'⟩
        · rw [if_neg (by simpa using h3)]
          exact ih _ _ _ ht' hc'

theorem expandGo_inv {topTracks : String → Nat → List TopTrack} {rows : List Row}
    {perArtist capLimit : Nat} {names : List String} :
    ∀ (cands : List ArtistCand) (seen : List String) (tracks : List TrackCand)
      (calls : List RecCall),
      (∀ a ∈ cands, a.artist ∈ names) →
      (∀ t ∈ tracks, recTrackOK names rows t) →
      (∀ c ∈ calls, recCallOK names perArtist c) →
      (∀ t ∈ (expandGo topTracks rows perArtist capLimit cands seen tracks calls).1,
        recTrackOK names rows t) ∧
      (∀ c ∈ (expandGo topTracks rows perArtist capLimit cands seen tracks calls).2,
        recCallOK names perArtist c) := by
  intro cands
  induction cands with
  | nil => intro seen tracks calls _ ht hc; exact ⟨ht, hc⟩
  | cons a rest ih =>
    intro seen tracks calls ha ht hc
    have hcalls' : ∀ c ∈ calls ++ [RecCall.topTracksCall a.artist perArtist],
        recCallOK names perArtist c := by
      intro c hcm
      rcases List.mem_append.mp hcm with h | h
      · exact hc c h
      · simp at h
        subst h
        exact ⟨ha a (by simp), fun art lim he => by cases he; rfl⟩
    have hinner := @innerGo_inv rows capLimit a.artist a.score names perArtist
      (ha a (by simp)) (topTracks a.artist perArtist)
      seen tracks _ ht hcalls'
    unfold expandGo
    dsimp only
    by_cases h3 : capLimit ≤ (innerGo rows capLimit a.artist a.score
        (topTracks a.artist perArtist) seen tracks
        (calls ++ [RecCall.topTracksCall a.artist perArtist])).1.length
    · rw [if_pos h3]
      exact ⟨hinner.1, hinner.2⟩
    · rw [if_neg h3]
      exact ih _ _ _ (fun a' h' => ha a' (by simp [h'])) hinner.1 hinner.2

/-- Membership in the final ranked track list comes from the pre-sort
list, with only the rank rewritten. -/
theorem mem_finalTracks {pu incl : Bool} {l : List TrackCand} {t : TrackCand}
    (h : t ∈ finalTracks pu incl l) : ∃ j, ∃ t0 ∈ l, t = { t0 with rank := j } := by
  unfold finalTracks at h
  obtain ⟨j, x, hx, rfl⟩ := mem_withIndexFrom h
  refine ⟨j, x, ?_, rfl⟩
  cases incl with
  | true =>
    simp only [if_pos] at hx
    unfold sortTracks at hx
    exact (List.mem_insertionSort _).mp hx
  | false =>
    simp only [Bool.false_eq_true, if_neg] at hx
    have hx' := List.mem_of_mem_filter hx
    unfold sortTracks at hx'
    exact (List.mem_insertionSort _).mp hx'

/-- C10 (amended): in every recommendation run, each output candidate
artist's name is the lowercase of the TRIMMED remote-reported
similar-artist name (the case-insensitive merge key; the untrimmed
lowercase of the reported name differs whenever the report carries outer
whitespace).  Every outgoing call of the expansion phase -- remote
top-tracks calls and the case-sensitive local play-count/last-played
lookups -- passes exactly one of these output candidate names, top-tracks
calls carry the configured per-artist limit, and every emitted track's
local stats are the case-sensitive count and latest timestamp over the
store for its own artist and track strings. -/
theorem recommend_names_and_calls (seeds : List SeedArtist)
    (similar : String → Nat → List SimilarArtist) (parseMatch : String → ℚ)
    (topTracks : String → Nat → List TopTrack) (rows : List Row) (opt : RecOptions)
    (out : RecOutput) (hout : out = buildRec seeds similar parseMatch topTracks rows opt) :
    (∀ a ∈ out.artists, ∃ seed ∈ seeds,
      ∃ sa ∈ similar seed.artist opt.similarPerSeedArtist,
        a.artist = strLower (strTrim sa.name)) ∧
    (∀ c ∈ out.calls, recCallArtist c ∈ out.artists.map (fun a => a.artist) ∧
      ∀ art lim, c = RecCall.topTracksCall art lim → lim = opt.topTracksPerArtist) ∧
    (∀ t ∈ out.tracks, t.artist ∈ out.artists.map (fun a => a.artist) ∧
      t.localPlays = localPlays rows t.artist t.track ∧
      t.localLastPlayedUTS = localLast rows t.artist t.track) := by
  subst hout
  have hartists : (buildRec seeds similar parseMatch topTracks rows opt).artists =
      artistCandsOf (aggAll opt.excludeSeedArtists (seeds.map (fun s => strLower s.artist))
        similar opt.similarPerSeedArtist parseMatch seeds) opt.similarArtistsLimit := rfl
  have htracks : (buildRec seeds similar parseMatch topTracks rows opt).tracks =
      finalTracks opt.preferUnplayed opt.includePlayedTracks
        (expandGo topTracks rows opt.topTracksPerArtist opt.candidateTracksLimit
          (artistCandsOf (aggAll opt.excludeSeedArtists
            (seeds.map (fun s => strLower s.artist)) similar opt.similarPerSeedArtist
            parseMatch seeds) opt.similarArtistsLimit) [] [] []).1 := rfl
  have hcalls : (buildRec seeds similar parseMatch topTracks rows opt).calls =
      (expandGo topTracks rows opt.topTracksPerArtist opt.candidateTracksLimit
        (artistCandsOf (aggAll opt.excludeSeedArtists
          (seeds.map (fun s => strLower s.artist)) similar opt.similarPerSeedArtist
          parseMatch seeds) opt.similarArtistsLimit) [] [] []).2 := rfl
  have hinv := @expandGo_inv topTracks rows
    opt.topTracksPerArtist opt.candidateTracksLimit
    ((artistCandsOf (aggAll opt.excludeSeedArtists
      (seeds.map (fun s => strLower s.artist)) similar opt.similarPerSeedArtist
      parseMatch seeds) opt.similarArtistsLimit).map (fun a => a.artist))
    (artistCandsOf (aggAll opt.excludeSeedArtists
      (seeds.map (fun s => strLower s.artist)) similar opt.similarPerSeedArtist
      parseMatch seeds) opt.similarArtistsLimit) [] [] []
    (fun a h => List.mem_map_of_mem (fun a => a.artist) h)
    (fun t h => absurd h (List.not_mem_nil t))
    (fun c h => absurd h (List.not_mem_nil c))
  refine ⟨?_, ?_, ?_⟩
  · intro a ha
    rw [hartists] at ha
    exact aggAll_keys (artistCandsOf_names ha)
  · intro c hcm
    rw [hcalls] at hcm
    have h := hinv.2 c hcm
    rw [hartists]
    exact ⟨h.1, h.2⟩
  · intro t htm
    rw [htracks] at htm
    obtain ⟨j, t0, ht0, rfl⟩ := mem_finalTracks htm
    have h := hinv.1 t0 ht0
    rw [hartists]
    exact ⟨h.1, h.2.1, h.2.2⟩

/-- Concrete inputs for the witness run: one seed, one reported similar
artist with mixed case and padding, one top track, one matching local
row. -/
def wSeeds : List SeedArtist := [⟨"Seedy", 10⟩]

def wSimilar : String → Nat → List SimilarArtist := fun _ _ => [⟨" Artist One ", "0.8"⟩]

def wParse : String → ℚ := fun _ => 1

def wTop : String → Nat → List TopTrack := fun _ _ => [⟨"Song A"⟩]

def wRows : List Row :=
  [⟨1500000000, "Song A", "artist one", none, none, none, none, none, "wh"⟩]

/-- Witness for the amended recommendation theorem at the concrete run. -/
theorem recommend_names_and_calls_witness :
    (buildRec wSeeds wSimilar wParse wTop wRows recDefaultOptions =
      buildRec wSeeds wSimilar wParse wTop wRows recDefaultOptions) ∧
    ((∀ a ∈ (buildRec wSeeds wSimilar wParse wTop wRows recDefaultOptions).artists,
        ∃ seed ∈ wSeeds,
        ∃ sa ∈ wSimilar seed.artist recDefaultOptions.similarPerSeedArtist,
          a.artist = strLower (strTrim sa.name)) ∧
      (∀ c ∈ (buildRec wSeeds wSimilar wParse wTop wRows recDefaultOptions).calls,
        recCallArtist c ∈
          (buildRec wSeeds wSimilar wParse wTop wRows recDefaultOptions).artists.map
            (fun a => a.artist) ∧
        ∀ art lim, c = RecCall.topTracksCall art lim →
          lim = recDefaultOptions.topTracksPerArtist) ∧
      (∀ t ∈ (buildRec wSeeds wSimilar wParse wTop wRows recDefaultOptions).tracks,
        t.artist ∈
          (buildRec wSeeds wSimilar wParse wTop wRows recDefaultOptions).artists.map
            (fun a => a.artist) ∧
        t.localPlays = localPlays wRows t.artist t.track ∧
        t.localLastPlayedUTS = localLast wRows t.artist t.track)) :=
  ⟨rfl, recommend_names_and_calls wSeeds wSimilar wParse wTop wRows recDefaultOptions
    (buildRec wSeeds wSimilar wParse wTop wRows recDefaultOptions) rfl⟩
